import Mathlib

/-!
# The growable bit vector of `bitvec/bitvec.c`

A shallow embedding of `src/bitvec/bitvec.c` and `src/bitvec/bitvec.h`.

* A byte (`uint8_t`) is a natural number; every store truncates with `% 256`.
* `size_t` is 64 bits wide: the arithmetic the source does on `nbits` and `off`
  is taken modulo `SIZE_MOD = 2 ^ 64`.
* The storage `b->vec` is the list of the bytes of the allocation.  A read or a
  write outside of it, and a failed `assert`, have no result: the operations
  return `Option`, and `none` stands for both.
* `malloc` and `realloc` hand out memory whose content is not determined by the
  program.  The operations that allocate take that content as the argument
  `junk`: `junk i` is what the allocator left in byte `i`.  `calloc` gives zeros.
* Allocation itself always succeeds (the source asserts it).
* `bv_get` and `bv_set` shift the `int` `0x80` by the bit index itself.  C
  defines that shift only for counts below 32, the width of `int`: for the
  counts 8 to 31 the value is 0, and for larger counts the two functions have no
  result (`none`).  The counts of the other shifts (`off % 8`, `sbits`,
  `8 - sbits`) are at most 8.
-/

namespace Bitvec

/-! ## Constants and the struct -/

/-- Initial capacity in bits, `#define BITVEC_BITS 8192`. -/
def BITVEC_BITS : Nat := 8192

/-- Number of values of a `size_t`. -/
def SIZE_MOD : Nat := 2 ^ 64

/-- The `struct bitvec_`: storage bytes, capacity in bits, length in bits. -/
structure bitvec where
  vec : List Nat
  nbits : Nat
  off : Nat
deriving DecidableEq, Repr

/-! ## Memory primitives -/

/-- Result of `calloc(1, n)`: `n` zero bytes. -/
def calloc (n : Nat) : List Nat := List.replicate n 0

/-- Result of `malloc(n)`: `n` bytes with whatever the allocator left there. -/
def malloc (junk : Nat → Nat) (n : Nat) : List Nat :=
  (List.range n).map (fun i => junk i % 256)

/-- Result of `realloc(l, n)`: the first `n` bytes of `l` are kept, the bytes
from `l.length` on are whatever the allocator left there. -/
def realloc (junk : Nat → Nat) (l : List Nat) (n : Nat) : List Nat :=
  l.take n ++ (List.range (n - l.length)).map (fun i => junk (l.length + i) % 256)

/-- The call `memset(l, c, n)`. -/
def memset (l : List Nat) (c n : Nat) : Option (List Nat) :=
  if n ≤ l.length then some (List.replicate n (c % 256) ++ l.drop n) else none

/-- The call `memcpy(dst + d, src, n)`. -/
def memcpy (dst : List Nat) (d : Nat) (src : List Nat) (n : Nat) : Option (List Nat) :=
  if d + n ≤ dst.length ∧ n ≤ src.length then
    some (dst.take d ++ src.take n ++ dst.drop (d + n))
  else none

/-- Read of `l[i]`. -/
def load (l : List Nat) (i : Nat) : Option Nat := l[i]?

/-- Write `l[i] = x`, truncated to a byte. -/
def store (l : List Nat) (i x : Nat) : Option (List Nat) :=
  if i < l.length then some (l.set i (x % 256)) else none

/-! ## Public API -/

/-- The function `bv_new`. -/
def bv_new : bitvec :=
  { vec := calloc (BITVEC_BITS / 8), nbits := BITVEC_BITS, off := 0 }

/-- The function `bv_init`. -/
def bv_init (v : Bool) : Option bitvec :=
  let b := bv_new
  if v then
    (memset b.vec 0xff (b.nbits / 8)).map (fun l => { b with vec := l })
  else some b

/-- Width of an `int` in bits. -/
def INT_BITS : Nat := 32

/-- The shift `x >> n` of the `int` `x` by the count `n`.  C defines it only
for counts below the width of `int`; for a larger count there is no result. -/
def shr_int (x n : Nat) : Option Nat :=
  if n < INT_BITS then some (x >>> n) else none

/-- The function `bv_get`.  Its mask is `0x80 >> bit`, with the bit index as
the count. -/
def bv_get (b : bitvec) (bit : Nat) : Option Bool :=
  if bit < b.off then
    (shr_int 0x80 bit).bind (fun mask =>
      (load b.vec (bit / 8)).map (fun x => (x &&& mask) != 0))
  else none

/-- The function `bv_set`.  Its mask is `0x80 >> bit`, with the bit index as
the count; the mask is a `size_t`, so `~mask` is taken in 64 bits. -/
def bv_set (b : bitvec) (bit : Nat) (v : Bool) : Option bitvec :=
  if bit < b.off then
    (shr_int 0x80 bit).bind (fun mask =>
      (load b.vec (bit / 8)).bind (fun x =>
        (store b.vec (bit / 8)
          (if v then x ||| mask else x &&& (SIZE_MOD - 1 - mask))).map
          (fun l => { b with vec := l })))
  else none

/-- The function `bv_push`. -/
def bv_push (junk : Nat → Nat) (b : bitvec) (v : Bool) : Option bitvec :=
  let b1 : bitvec :=
    if b.nbits = b.off then
      let n := (b.nbits * 2) % SIZE_MOD
      { b with nbits := n, vec := realloc junk b.vec (n / 8) }
    else b
  let stored : Option (List Nat) :=
    if v then
      (load b1.vec (b1.off / 8)).bind (fun x =>
        store b1.vec (b1.off / 8) (x ||| (0x80 >>> (b1.off % 8))))
    else some b1.vec
  stored.map (fun l => { b1 with vec := l, off := (b1.off + 1) % SIZE_MOD })

/-- The function `bv_pop`: the result and the buffer afterwards.  The mask is a
`uint8_t`, promoted to a 32-bit `int` for `~mask`. -/
def bv_pop (b : bitvec) : Option (Bool × bitvec) :=
  if 0 < b.off then
    let mask := (0x80 >>> (b.off % 8)) % 256
    (load b.vec (b.off / 8)).bind (fun x =>
      let r := (x &&& mask) != 0
      (store b.vec (b.off / 8) (x &&& (0xFFFFFFFF - mask))).map
        (fun l => (r, { b with vec := l, off := b.off - 1 })))
  else none

/-- The loop of `next_power_of_2`, run for at most `fuel` tests of `r < x`. -/
def next_power_of_2_loop : Nat → Nat → Nat → Option Nat
  | 0, _, _ => none
  | fuel + 1, r, x =>
    if r < x then next_power_of_2_loop fuel ((r <<< 1) % SIZE_MOD) x else some r

/-- The function `next_power_of_2`.  `r` starts at `2 ^ 13` and is 0 after 51
shifts, where it stays: when 64 tests do not end the loop, nothing does, and
the result is `none`. -/
def next_power_of_2 (x : Nat) : Option Nat :=
  next_power_of_2_loop 64 BITVEC_BITS x

/-- The `for` loop of `bv_push_bytes`: `n` more rounds, starting at index `i`. -/
def shift_loop (base sbits : Nat) : Nat → Nat → List Nat → Option (List Nat)
  | 0, _, l => some l
  | n + 1, i, l =>
    (load l (base + i)).bind (fun a =>
    (load l (base + i + 1)).bind (fun c =>
    (store l (base + i) (a ||| (c >>> sbits))).bind (fun l1 =>
    (load l1 (base + i + 1)).bind (fun c1 =>
    (store l1 (base + i + 1) (c1 <<< (8 - sbits))).bind (fun l2 =>
    shift_loop base sbits n (i + 1) l2)))))

/-- The function `bv_push_bytes`. -/
def bv_push_bytes (junk : Nat → Nat) (b : bitvec) (vec : List Nat) (nbytes : Nat) :
    Option bitvec :=
  let need := (b.off + 8 * nbytes + 1) % SIZE_MOD
  let grown : Option bitvec :=
    if b.nbits < need then
      let nbits := if need % 8 ≠ 0 then (need + (8 - need % 8)) % SIZE_MOD else need
      (next_power_of_2 nbits).map (fun cap =>
        { b with nbits := cap, vec := realloc junk b.vec (cap / 8) })
    else some b
  grown.bind (fun b1 =>
    let base := b1.off / 8
    let sbits := b1.off % 8
    let copied : Option (List Nat) :=
      if sbits = 0 then memcpy b1.vec base vec nbytes
      else (memcpy b1.vec (base + 1) vec nbytes).bind (fun l =>
        shift_loop base sbits nbytes 0 l)
    copied.map (fun l => { b1 with vec := l, off := (b1.off + 8 * nbytes) % SIZE_MOD }))

/-- The function `bv_push_bits`. -/
def bv_push_bits (junk : Nat → Nat) (b : bitvec) (vec : List Nat) (nbits : Nat) :
    Option bitvec :=
  let nbytes := if nbits % 8 ≠ 0 then nbits / 8 + 1 else nbits / 8
  (bv_push_bytes junk b vec nbytes).map (fun b1 =>
    { b1 with off := (b1.off + (SIZE_MOD - (8 * nbytes) % SIZE_MOD) + nbits) % SIZE_MOD })

/-- The function `bv_to_array`: the buffer afterwards, the returned array and
the value written to `*nbits`. -/
def bv_to_array (junk : Nat → Nat) (b : bitvec) : Option (bitvec × List Nat × Nat) :=
  let nbytes := if b.off % 8 ≠ 0 then b.off / 8 + 1 else b.off / 8
  (memcpy (malloc junk nbytes) 0 b.vec nbytes).map (fun r => (b, r, b.off))

/-! ## Observations used by the statements -/

/-- Bit `i` of a byte array in the layout of the header: byte `i / 8`, mask
`0x80 >> (i % 8)`. -/
def bit_at (l : List Nat) (i : Nat) : Option Bool :=
  (l[i / 8]?).map (fun x => (x &&& (0x80 >>> (i % 8))) != 0)

/-- The calls `bv_push(b, vs[0])`, ..., `bv_push(b, vs[n-1])` in order. -/
def bv_push_all (junk : Nat → Nat) : bitvec → List Bool → Option bitvec
  | b, [] => some b
  | b, v :: vs => (bv_push junk b v).bind (fun b1 => bv_push_all junk b1 vs)

/-- An allocator that leaves zeros. -/
def zeros : Nat → Nat := fun _ => 0

/-- An allocator that leaves `0xff` in every byte. -/
def ones : Nat → Nat := fun _ => 0xff

/-- The buffer after `bv_new()` and the twelve pushes 1,0,1,1,0,1,0,1,1,1,1,1. -/
def twelve_bits : bitvec :=
  { vec := [0xb5, 0xf0] ++ calloc 1022, nbits := 8192, off := 12 }

/-- The buffer after `bv_new()` and 8192 pushes of `false`: the length has
reached the capacity. -/
def full_bits : bitvec :=
  { vec := calloc 1024, nbits := 8192, off := 8192 }

/-- The data-model invariant of the specification: the length is at most the
capacity, the capacity is a power of two, a multiple of 8 and at least 8192, and
the storage holds `nbits / 8` bytes.  The capacity is a value of `size_t`. -/
def Inv (b : bitvec) : Prop :=
  b.off ≤ b.nbits ∧ (∃ k, b.nbits = 2 ^ k) ∧ b.nbits % 8 = 0 ∧ BITVEC_BITS ≤ b.nbits ∧
    b.vec.length = b.nbits / 8 ∧ b.nbits < SIZE_MOD

/-- One call of `bv_push`, `bv_set`, `bv_pop` or `bv_get`. -/
inductive call where
  | do_push (v : Bool)
  | do_set (i : Nat) (v : Bool)
  | do_pop
  | do_get (i : Nat)
deriving DecidableEq, Repr

/-- One call on a buffer: the buffer afterwards and the value the call returns,
if it returns one. -/
def run_call (junk : Nat → Nat) (b : bitvec) : call → Option (bitvec × Option Bool)
  | call.do_push v => (bv_push junk b v).map (fun b1 => (b1, none))
  | call.do_set i v => (bv_set b i v).map (fun b1 => (b1, none))
  | call.do_pop => (bv_pop b).map (fun p => (p.2, some p.1))
  | call.do_get i => (bv_get b i).map (fun r => (b, some r))

/-- A sequence of calls: for each call the value it returns and the length
after it. -/
def run_calls (junk : Nat → Nat) : bitvec → List call → Option (List (Option Bool × Nat))
  | _, [] => some []
  | b, c :: cs =>
    (run_call junk b c).bind (fun p =>
      (run_calls junk p.1 cs).map (fun t => (p.2, p.1.off) :: t))

/-- The byte index of `b->vec` that `bv_pop` reads and writes,
`b->vec[b->off / 8]`. -/
def bv_pop_index (b : bitvec) : Nat := b.off / 8

/-- The bytes that the loop of `bv_push_bytes` leaves from index `base` on:
every source byte `d` is split, its top bits or-ed into the byte before it
(`carry`) and its low bits shifted up into the next `carry`. -/
def shift_bytes (sbits : Nat) : Nat → List Nat → List Nat
  | carry, [] => [carry]
  | carry, d :: ds =>
    ((carry ||| (d >>> sbits)) % 256) :: shift_bytes sbits ((d <<< (8 - sbits)) % 256) ds

/-- The growth step of `bv_push_bytes` (the `if` at its start): the buffer with
which the copy works. -/
def grow_step (junk : Nat → Nat) (b : bitvec) (nbytes : Nat) : Option bitvec :=
  let need := (b.off + 8 * nbytes + 1) % SIZE_MOD
  if b.nbits < need then
    let nbits := if need % 8 ≠ 0 then (need + (8 - need % 8)) % SIZE_MOD else need
    (next_power_of_2 nbits).map (fun cap =>
      { b with nbits := cap, vec := realloc junk b.vec (cap / 8) })
  else some b

/-- The copy of `bv_push_bytes` after the growth step: the `memcpy` and, off a
byte boundary, the shift loop. -/
def copy_step (b1 : bitvec) (vec : List Nat) (nbytes : Nat) : Option (List Nat) :=
  let base := b1.off / 8
  let sbits := b1.off % 8
  if sbits = 0 then memcpy b1.vec base vec nbytes
  else (memcpy b1.vec (base + 1) vec nbytes).bind (fun l =>
    shift_loop base sbits nbytes 0 l)

/-- The byte indices of `b->vec` that the copy of `bv_push_bytes` reads or
writes: the target of the `memcpy`, and in the loop `base + i` and
`base + i + 1` for every `i < nbytes`. -/
def copy_step_indices (b1 : bitvec) (nbytes : Nat) : List Nat :=
  let base := b1.off / 8
  let sbits := b1.off % 8
  if sbits = 0 then (List.range nbytes).map (fun k => base + k)
  else (List.range nbytes).map (fun k => base + 1 + k)
    ++ (List.range nbytes).map (fun i => base + i)
    ++ (List.range nbytes).map (fun i => base + i + 1)

/-- The indices of the source that the `memcpy` of `bv_push_bytes` reads. -/
def source_indices (nbytes : Nat) : List Nat := List.range nbytes

/-- The buffers that the public operations produce from `bv_new()` or
`bv_init(v)`.  Every call respects its precondition, returns, and keeps its
sums inside `size_t`; the allocator may leave anything at every call. -/
inductive Reachable : bitvec → Prop where
  | by_new : Reachable bv_new
  | by_init (v : Bool) (b : bitvec) (h : bv_init v = some b) : Reachable b
  | by_set (b b1 : bitvec) (i : Nat) (v : Bool) (hb : Reachable b) (hpre : i < b.off)
      (h : bv_set b i v = some b1) : Reachable b1
  | by_push (junk : Nat → Nat) (b b1 : bitvec) (v : Bool) (hb : Reachable b)
      (hsz : b.off = b.nbits → 2 * b.nbits < SIZE_MOD)
      (h : bv_push junk b v = some b1) : Reachable b1
  | by_pop (b b1 : bitvec) (r : Bool) (hb : Reachable b) (hpre : 0 < b.off)
      (h : bv_pop b = some (r, b1)) : Reachable b1
  | by_push_bytes (junk : Nat → Nat) (b b1 : bitvec) (data : List Nat) (n : Nat)
      (hb : Reachable b) (hpre : data.length = n) (hsz : b.off + 8 * n + 8 < SIZE_MOD)
      (h : bv_push_bytes junk b data n = some b1) : Reachable b1
  | by_push_bits (junk : Nat → Nat) (b b1 : bitvec) (data : List Nat) (n : Nat)
      (hb : Reachable b) (hpre : data.length = (n + 7) / 8)
      (hsz : b.off + 8 * ((n + 7) / 8) + 8 < SIZE_MOD)
      (h : bv_push_bits junk b data n = some b1) : Reachable b1

set_option maxRecDepth 100000

/-! ## The sample buffer -/

theorem twelve_bits_pushed :
    bv_push_all zeros bv_new
      [true, false, true, true, false, true, false, true, true, true, true, true]
      = some twelve_bits := by decide

/-! ## Behaviour at concrete inputs -/

/-- C1 fails on the code: after `bv_new()` and nine pushes of `true` the
storage bit at index 8 is set, but `bv_get(b, 8)` returns `false`, because its
mask is `0x80 >> bit` and not `0x80 >> (bit % 8)`. -/
theorem bv_get_after_pushes_wrong_at_8 :
    (List.replicate 9 true)[8]? = some true ∧
    (bv_push_all zeros bv_new (List.replicate 9 true)).bind (fun b => bit_at b.vec 8)
      = some true ∧
    (bv_push_all zeros bv_new (List.replicate 9 true)).bind (fun b => bv_get b 8)
      = some false := by decide

/-- C2 fails on the code: after `bv_new()` and `bv_push(b, true)`, `bv_pop(b)`
returns `false`: it tests and clears the bit at index `off`, not `off - 1`.  The
length is back to 0 and the pushed bit is still set in the storage. -/
theorem bv_pop_after_push_returns_false :
    ((bv_push zeros bv_new true).bind bv_pop).map (fun p => p.1) = some false ∧
    ((bv_push zeros bv_new true).bind bv_pop).map (fun p => p.2.off) = some 0 ∧
    ((bv_push zeros bv_new true).bind bv_pop).bind (fun p => bit_at p.2.vec 0)
      = some true := by decide

/-- C3 fails on the code: on the buffer of nine `false` bits, `bv_set(b, 8, true)`
changes nothing (its mask `0x80 >> 8` is 0) and `bv_get(b, 8)` returns `false`. -/
theorem bv_get_after_bv_set_wrong_at_8 :
    ((bv_push_all zeros bv_new (List.replicate 9 false)).bind
      (fun b => bv_set b 8 true)).bind (fun b => bv_get b 8) = some false ∧
    ((bv_push_all zeros bv_new (List.replicate 9 false)).bind
      (fun b => bv_set b 8 true)).bind (fun b => bit_at b.vec 8) = some false ∧
    (bv_push_all zeros bv_new (List.replicate 9 false)).bind (fun b => bv_set b 8 true)
      = bv_push_all zeros bv_new (List.replicate 9 false) := by decide

/-- C5 fails on the code: `bv_push(b, false)` writes nothing, so a storage bit
that is already set at the tail stays set.  After `bv_new()` and
`bv_push_bits(b, [0xff], 3)` the length is 3 and `bv_push(b, false)` leaves the
storage bit at index 3 set; the same after `bv_init(true)` at index 0. -/
theorem bv_push_false_keeps_set_bit :
    (bv_push_bits zeros bv_new [0xff] 3).map (fun b => b.off) = some 3 ∧
    ((bv_push_bits zeros bv_new [0xff] 3).bind (fun b => bv_push zeros b false)).map
      (fun b => b.off) = some 4 ∧
    ((bv_push_bits zeros bv_new [0xff] 3).bind (fun b => bv_push zeros b false)).bind
      (fun b => bit_at b.vec 3) = some true ∧
    ((bv_init true).bind (fun b => bv_push zeros b false)).map (fun b => b.off) = some 1 ∧
    ((bv_init true).bind (fun b => bv_push zeros b false)).bind (fun b => bit_at b.vec 0)
      = some true := by decide

/-- C6 fails on the code: after the pushes 1,0,1,1 and
`bv_push_bytes(b, [0xff, 0x00], 2)` the storage holds `0xbf 0xf0 0x00`, the
twenty bits of the claim, but `bv_get` returns `false` at the indices 8 to 11,
where the bits are set. -/
theorem bv_get_after_push_bytes_wrong_at_8 :
    ((bv_push_all zeros bv_new [true, false, true, true]).bind
      (fun b => bv_push_bytes zeros b [0xff, 0x00] 2)).map
      (fun b => (b.vec.take 3, b.off)) = some ([0xbf, 0xf0, 0x00], 20) ∧
    bit_at [0xff, 0x00] 4 = some true ∧
    ((bv_push_all zeros bv_new [true, false, true, true]).bind
      (fun b => bv_push_bytes zeros b [0xff, 0x00] 2)).bind
      (fun b => bv_get b (4 + 4)) = some false ∧
    ((bv_push_all zeros bv_new [true, false, true, true]).bind
      (fun b => bv_push_bytes zeros b [0xff, 0x00] 2)).map
      (fun b => (List.range 20).map (fun i => bv_get b i))
      = some [some true, some false, some true, some true,
              some true, some true, some true, some true,
              some false, some false, some false, some false,
              some false, some false, some false, some false,
              some false, some false, some false, some false] := by decide

/-- C7 fails on the code: after `bv_new()` and `bv_push_bits(b, [0xff], 3)` the
five low bits of the source byte stay in the storage, and
`bv_push_bits(b, [0x00], 8)` ors the new bits onto them: the length is 11 but
the storage bit at index 3 is set, where bit 0 of the data is clear. -/
theorem bv_push_bits_keeps_stale_bits :
    ((bv_push_bits zeros bv_new [0xff] 3).bind
      (fun b => bv_push_bits zeros b [0x00] 8)).map (fun b => b.off) = some (3 + 8) ∧
    bit_at [0x00] 0 = some false ∧
    ((bv_push_bits zeros bv_new [0xff] 3).bind
      (fun b => bv_push_bits zeros b [0x00] 8)).bind (fun b => bit_at b.vec (3 + 0))
      = some true := by decide

/-- C8 fails on the code: after `bv_new()` and `bv_push_bits(b, [0xff], 3)`,
`bv_to_array` returns the byte `0xff` with `nbits = 3`: the bits 3 to 7 of the
last byte are set, not zero. -/
theorem bv_to_array_padding_not_zero :
    ((bv_push_bits zeros bv_new [0xff] 3).bind (fun b => bv_to_array zeros b)).map
      (fun r => r.2) = some ([0xff], 3) ∧
    bit_at [0xff] 3 = some true := by decide

/-! ## Bit arithmetic -/

theorem and_two_pow_ne_zero (x k : Nat) : ((x &&& 2 ^ k) != 0) = x.testBit k := by
  cases h : x.testBit k
  · have : x &&& 2 ^ k = 0 := by
      apply Nat.eq_of_testBit_eq
      intro i
      simp only [Nat.testBit_and, Nat.testBit_two_pow, Nat.zero_testBit]
      by_cases hik : k = i
      · subst hik; simp [h]
      · simp [hik]
    simp [this]
  · have : (x &&& 2 ^ k).testBit k = true := by
      simp [Nat.testBit_and, Nat.testBit_two_pow_self, h]
    have hne : x &&& 2 ^ k ≠ 0 := by
      intro h0
      rw [h0] at this
      simp at this
    simp [hne]

theorem mask_eq_two_pow (k : Nat) (hk : k < 8) : 0x80 >>> k = 2 ^ (7 - k) := by
  interval_cases k <;> rfl

theorem mask_eq_zero (k : Nat) (hk : 8 ≤ k) : 0x80 >>> k = 0 := by
  rw [Nat.shiftRight_eq_div_pow]
  apply Nat.div_eq_of_lt
  calc 128 < 2 ^ 8 := by norm_num
    _ ≤ 2 ^ k := Nat.pow_le_pow_right (by norm_num) hk

/-- The mask test of the source reads bit `7 - k` of the byte. -/
theorem mask_test (x k : Nat) (hk : k < 8) :
    ((x &&& (0x80 >>> k)) != 0) = x.testBit (7 - k) := by
  rw [mask_eq_two_pow k hk, and_two_pow_ne_zero]

theorem testBit_trunc (x n : Nat) (hn : n < 8) : (x % 256).testBit n = x.testBit n := by
  have : (256 : Nat) = 2 ^ 8 := by norm_num
  rw [this, Nat.testBit_mod_two_pow]
  simp [hn]

theorem set_keeps_other_bit (x i j : Nat) (v : Bool) (hi : i < 8) (hj : j < 8) (hij : j ≠ i) :
    ((if v then x ||| (0x80 >>> i) else x &&& (SIZE_MOD - 1 - (0x80 >>> i))) % 256).testBit (7 - j)
      = x.testBit (7 - j) := by
  rw [testBit_trunc _ _ (by omega), mask_eq_two_pow i hi]
  cases v
  · have h1 : SIZE_MOD - 1 - 2 ^ (7 - i) = 2 ^ 64 - (2 ^ (7 - i) + 1) := by
      unfold SIZE_MOD; omega
    have h2 : (2 : Nat) ^ (7 - i) < 2 ^ 64 :=
      Nat.pow_lt_pow_right (by norm_num) (by omega)
    simp only [Bool.false_eq_true, if_false, Nat.testBit_and, h1,
      Nat.testBit_two_pow_sub_succ h2, Nat.testBit_two_pow]
    have : ¬ (7 - i = 7 - j) := by omega
    have h3 : 7 - j < 64 := by omega
    simp [this, h3]
  · simp only [if_true, Nat.testBit_or, Nat.testBit_two_pow]
    have : ¬ (7 - i = 7 - j) := by omega
    simp [this]

/-! ## bv_set -/

theorem testBit_unmasked (x n : Nat) (v : Bool) (hn : n < 8) :
    ((if v then x ||| 0 else x &&& (SIZE_MOD - 1 - 0)) % 256).testBit n = x.testBit n := by
  rw [testBit_trunc _ _ hn]
  cases v
  · have h1 : SIZE_MOD - 1 - 0 = 2 ^ 64 - 1 := rfl
    simp only [Bool.false_eq_true, if_false, h1, Nat.and_pow_two_sub_one_eq_mod,
      Nat.testBit_mod_two_pow]
    have : n < 64 := by omega
    simp [this]
  · simp

/-- Where the shift of `bv_set` is defined (index below 32) the call succeeds,
keeps `off`, `nbits` and the size of the storage, leaves every other storage
bit as it was, and `bv_get` returns the same as before at every other index. -/
theorem bv_set_below_32 (b : bitvec) (i : Nat) (v : Bool)
    (hi : i < b.off) (h32 : i < 32) (hfit : b.off ≤ 8 * b.vec.length) :
    ∃ b1, bv_set b i v = some b1 ∧ b1.off = b.off ∧ b1.nbits = b.nbits ∧
      b1.vec.length = b.vec.length ∧
      (∀ j, j ≠ i → bit_at b1.vec j = bit_at b.vec j) ∧
      (∀ j, j < b.off → j ≠ i → bv_get b1 j = bv_get b j) := by
  have hlen : i / 8 < b.vec.length := by omega
  have hbyte : ∀ j, j / 8 = i / 8 → j ≠ i →
      ((if v then b.vec[i / 8] ||| (0x80 >>> i)
        else b.vec[i / 8] &&& (SIZE_MOD - 1 - (0x80 >>> i))) % 256).testBit (7 - j % 8)
        = (b.vec[i / 8]).testBit (7 - j % 8) := by
    intro j hb hji
    by_cases hi8 : i < 8
    · exact set_keeps_other_bit _ i (j % 8) v hi8 (Nat.mod_lt _ (by norm_num)) (by omega)
    · rw [mask_eq_zero i (by omega)]
      exact testBit_unmasked _ _ v (by omega)
  refine ⟨⟨List.set b.vec (i / 8)
      ((if v then b.vec[i / 8] ||| (0x80 >>> i)
        else b.vec[i / 8] &&& (SIZE_MOD - 1 - (0x80 >>> i))) % 256), b.nbits, b.off⟩,
      ?_, rfl, rfl, by simp, ?_, ?_⟩
  · simp [bv_set, hi, shr_int, INT_BITS, h32, load, store, hlen, List.getElem?_eq_getElem]
  · intro j hji
    show bit_at (List.set _ _ _) j = _
    unfold bit_at
    by_cases hb : j / 8 = i / 8
    · rw [hb, List.getElem?_set_self hlen, List.getElem?_eq_getElem hlen]
      simp only [Option.map_some']
      congr 1
      rw [mask_test _ _ (Nat.mod_lt _ (by norm_num)), mask_test _ _ (Nat.mod_lt _ (by norm_num))]
      exact hbyte j hb hji
    · rw [List.getElem?_set_ne (fun h => hb h.symm)]
  · intro j hj hji
    simp only [bv_get, hj, if_true, load]
    by_cases hj32 : j < 32
    · simp only [shr_int, INT_BITS, hj32, if_true, Option.some_bind]
      by_cases hb : j / 8 = i / 8
      · rw [hb, List.getElem?_set_self hlen, List.getElem?_eq_getElem hlen]
        simp only [Option.map_some']
        congr 1
        by_cases hj8 : j < 8
        · have hj0 : j % 8 = j := by omega
          have h := hbyte j hb hji
          rw [hj0] at h
          rw [mask_test _ _ hj8, mask_test _ _ hj8]
          exact h
        · rw [mask_eq_zero j (by omega)]
          simp
      · rw [List.getElem?_set_ne (fun h => hb h.symm)]
    · simp [shr_int, INT_BITS, hj32]

theorem length_malloc (junk : Nat → Nat) (n : Nat) : (malloc junk n).length = n := by
  simp [malloc]

theorem length_calloc (n : Nat) : (calloc n).length = n := by
  simp [calloc]

theorem length_realloc (junk : Nat → Nat) (l : List Nat) (n : Nat) :
    (realloc junk l n).length = n := by
  simp only [realloc, List.length_append, List.length_take, List.length_map, List.length_range]
  omega

/-- Copying a whole array over a fresh one of the same size gives the source. -/
theorem memcpy_whole (dst src : List Nat) (n : Nat) (hd : dst.length = n) (hs : n ≤ src.length) :
    memcpy dst 0 src n = some (src.take n) := by
  have h1 : List.drop n dst = [] := List.drop_eq_nil_of_le (by omega)
  simp [memcpy, hd, hs, h1]

/-- The number of bytes that hold `n` bits, as the source computes it. -/
theorem nbytes_eq (n : Nat) : (if n % 8 ≠ 0 then n / 8 + 1 else n / 8) = (n + 7) / 8 := by
  split <;> omega

theorem bit_at_take (l : List Nat) (n i : Nat) (h : i / 8 < n) :
    bit_at (l.take n) i = bit_at l i := by
  simp [bit_at, List.getElem?_take, h]

theorem bit_at_append_left (l r : List Nat) (i : Nat) (h : i / 8 < l.length) :
    bit_at (l ++ r) i = bit_at l i := by
  simp [bit_at, List.getElem?_append_left h]

theorem bit_at_isSome (l : List Nat) (i : Nat) (h : i / 8 < l.length) :
    ∃ v, bit_at l i = some v := by
  simp [bit_at, List.getElem?_eq_getElem h]

/-! ## next_power_of_2 -/

theorem next_power_of_2_loop_spec (x : Nat) (hx : x ≤ 2 ^ 63) :
    ∀ fuel k, k ≤ 63 → 63 - k < fuel →
      ∃ j, k ≤ j ∧ j ≤ 63 ∧ next_power_of_2_loop fuel (2 ^ k) x = some (2 ^ j) ∧
        x ≤ 2 ^ j ∧ (j = k ∨ 2 ^ (j - 1) < x) := by
  intro fuel
  induction fuel with
  | zero => intro k _ h; omega
  | succ fuel ih =>
    intro k hk hfuel
    by_cases hlt : 2 ^ k < x
    · have hk63 : k < 63 := by
        by_contra hge
        have : k = 63 := by omega
        subst this
        omega
      have hshift : (2 ^ k <<< 1) % SIZE_MOD = 2 ^ (k + 1) := by
        have hpow : 2 ^ k <<< 1 = 2 ^ (k + 1) := by
          rw [Nat.shiftLeft_eq]
          ring
        rw [hpow]
        apply Nat.mod_eq_of_lt
        unfold SIZE_MOD
        exact Nat.pow_lt_pow_right (by norm_num) (by omega)
      obtain ⟨j, hj1, hj2, hres, hxj, hmin⟩ := ih (k + 1) (by omega) (by omega)
      refine ⟨j, by omega, hj2, ?_, hxj, ?_⟩
      · simp only [next_power_of_2_loop, hlt, if_true, hshift]
        exact hres
      · right
        rcases hmin with h | h
        · subst h; simpa using hlt
        · exact h
    · refine ⟨k, le_refl k, hk, ?_, by omega, Or.inl rfl⟩
      simp [next_power_of_2_loop, hlt]

theorem next_power_of_2_spec (x : Nat) (hx : x ≤ 2 ^ 63) :
    ∃ j, 13 ≤ j ∧ j ≤ 63 ∧ next_power_of_2 x = some (2 ^ j) ∧ x ≤ 2 ^ j ∧
      (j = 13 ∨ 2 ^ (j - 1) < x) := by
  have h := next_power_of_2_loop_spec x hx 64 13 (by norm_num) (by norm_num)
  have h13 : BITVEC_BITS = 2 ^ 13 := by norm_num [BITVEC_BITS]
  simpa [next_power_of_2, h13] using h

/-! ## bv_to_array -/

theorem bv_to_array_eq (junk : Nat → Nat) (b : bitvec) (hfit : b.off ≤ 8 * b.vec.length) :
    bv_to_array junk b = some (b, b.vec.take ((b.off + 7) / 8), b.off) := by
  have hn : (b.off + 7) / 8 ≤ b.vec.length := by omega
  simp only [bv_to_array, nbytes_eq]
  rw [memcpy_whole _ _ _ (length_malloc _ _) hn]
  rfl

/-- C9: for a buffer whose length `L` fits its storage, `bv_to_array` returns
an array of exactly `(L + 7) / 8` bytes and sets `*nbits` to `L`; every bit
below `L` of the array is the storage bit of the buffer at that index; the
buffer is the same afterwards; the allocator's junk plays no part. -/
theorem bv_to_array_copies (junk : Nat → Nat) (b : bitvec)
    (hfit : b.off ≤ 8 * b.vec.length) :
    ∃ arr, bv_to_array junk b = some (b, arr, b.off) ∧ arr.length = (b.off + 7) / 8 ∧
      ∀ i, i < b.off → ∃ v, bit_at b.vec i = some v ∧ bit_at arr i = some v := by
  have hn : (b.off + 7) / 8 ≤ b.vec.length := by omega
  refine ⟨b.vec.take ((b.off + 7) / 8), bv_to_array_eq junk b hfit, ?_, ?_⟩
  · simp [List.length_take, hn]
  · intro i hi
    obtain ⟨v, hv⟩ := bit_at_isSome b.vec i (by omega)
    exact ⟨v, hv, by rw [bit_at_take _ _ _ (by omega), hv]⟩

/-! ## bv_push_bytes on a byte-aligned tail -/

theorem realloc_take_of_le (junk : Nat → Nat) (l : List Nat) (n k : Nat)
    (hk : k ≤ l.length) (hn : l.length ≤ n) : (realloc junk l n).take k = l.take k := by
  simp only [realloc, List.take_of_length_le hn]
  rw [List.take_append_of_le_length hk]

/-- With the tail on a byte boundary `bv_push_bytes` keeps the bytes below the
tail and puts the source bytes right after them. -/
theorem bv_push_bytes_aligned (junk : Nat → Nat) (b : bitvec) (data : List Nat) (n : Nat)
    (hlen : data.length = n) (hal : b.off % 8 = 0) (hoff : b.off ≤ b.nbits)
    (hvec : b.vec.length = b.nbits / 8) (hsz : b.off + 8 * n + 8 ≤ 2 ^ 63) :
    ∃ rest cap, bv_push_bytes junk b data n
      = some ⟨b.vec.take (b.off / 8) ++ data ++ rest, cap, b.off + 8 * n⟩ := by
  have hM : SIZE_MOD = 2 ^ 64 := rfl
  have hneed : (b.off + 8 * n + 1) % SIZE_MOD = b.off + 8 * n + 1 := by
    apply Nat.mod_eq_of_lt; rw [hM]; omega
  have hoff2 : (b.off + 8 * n) % SIZE_MOD = b.off + 8 * n := by
    apply Nat.mod_eq_of_lt; rw [hM]; omega
  have htake : data.take n = data := by
    rw [← hlen]; exact List.take_length data
  unfold bv_push_bytes
  simp only [hneed, hoff2, hal]
  by_cases hgrow : b.nbits < b.off + 8 * n + 1
  · have hround : (if (b.off + 8 * n + 1) % 8 ≠ 0
          then (b.off + 8 * n + 1 + (8 - (b.off + 8 * n + 1) % 8)) % SIZE_MOD
          else b.off + 8 * n + 1) = b.off + 8 * n + 8 := by
      have h1 : (b.off + 8 * n + 1) % 8 = 1 := by omega
      rw [h1]
      simp only [ne_eq, OfNat.one_ne_ofNat, not_false_eq_true, if_true]
      apply Nat.mod_eq_of_lt; rw [hM]; omega
    obtain ⟨j, hj13, hj63, hcap, hle, _⟩ := next_power_of_2_spec (b.off + 8 * n + 8) hsz
    have hcap8 : b.off / 8 + n + 1 ≤ 2 ^ j / 8 := by omega
    have hcopy : memcpy (realloc junk b.vec (2 ^ j / 8)) (b.off / 8) data n
        = some (b.vec.take (b.off / 8) ++ data
            ++ (realloc junk b.vec (2 ^ j / 8)).drop (b.off / 8 + n)) := by
      have h1 : b.off / 8 + n ≤ (realloc junk b.vec (2 ^ j / 8)).length := by
        rw [length_realloc]; omega
      have h2 : (realloc junk b.vec (2 ^ j / 8)).take (b.off / 8) = b.vec.take (b.off / 8) :=
        realloc_take_of_le junk b.vec _ _ (by omega) (by omega)
      simp [memcpy, h1, hlen, htake, h2]
    refine ⟨(realloc junk b.vec (2 ^ j / 8)).drop (b.off / 8 + n), 2 ^ j, ?_⟩
    simp [hgrow, hround, hcap, hcopy, hal, hoff2]
  · have hcopy : memcpy b.vec (b.off / 8) data n
        = some (b.vec.take (b.off / 8) ++ data ++ b.vec.drop (b.off / 8 + n)) := by
      have h1 : b.off / 8 + n ≤ b.vec.length := by omega
      simp [memcpy, h1, hlen, htake]
    refine ⟨b.vec.drop (b.off / 8 + n), b.nbits, ?_⟩
    simp [hgrow, hcopy, hal, hoff2]

/-! ## Round trip through bv_to_array -/

/-- Appending the bytes `arr` of `8 * arr.length` bits or fewer to a new buffer
with `bv_push_bits` stores `arr` at the start of the storage. -/
theorem bv_push_bits_new (junk : Nat → Nat) (arr : List Nat) (L : Nat)
    (harr : arr.length = (L + 7) / 8) (hsz : L + 8 ≤ 2 ^ 63) :
    ∃ rest cap, bv_push_bits junk bv_new arr L = some ⟨arr ++ rest, cap, L⟩ := by
  obtain ⟨rest, cap, hpush⟩ := bv_push_bytes_aligned junk bv_new arr ((L + 7) / 8) harr rfl
    (by decide) (by simp [bv_new, length_calloc]) (by simp only [bv_new]; omega)
  have hM : SIZE_MOD = 2 ^ 64 := rfl
  have hfix : (0 + 8 * ((L + 7) / 8) + (SIZE_MOD - 8 * ((L + 7) / 8) % SIZE_MOD) + L)
      % SIZE_MOD = L := by
    have h1 : 8 * ((L + 7) / 8) % SIZE_MOD = 8 * ((L + 7) / 8) := by
      apply Nat.mod_eq_of_lt; rw [hM]; omega
    rw [h1]
    have h2 : 0 + 8 * ((L + 7) / 8) + (SIZE_MOD - 8 * ((L + 7) / 8)) + L = L + SIZE_MOD := by
      rw [hM]; omega
    rw [h2, Nat.add_mod_right]
    apply Nat.mod_eq_of_lt; rw [hM]; omega
  refine ⟨rest, cap, ?_⟩
  simp only [bv_push_bits, nbytes_eq, hpush, Option.map_some']
  have h0 : bv_new.off = 0 := rfl
  simp only [h0, Nat.zero_div, List.take_zero, List.nil_append, hfix]

/-- C10: round trip.  For a buffer `b` whose length `L` fits its storage (and
is small enough for the growth arithmetic to stay inside `size_t`), with
`(arr, n) = bv_to_array(b)` and `c` the buffer after `bv_new()` and
`bv_push_bits(c, arr, n)`: `c` has length `L`, each storage bit of `c` below `L`
is that of `b`, and `bv_to_array(c)` returns the same bytes and the same
`nbits`. -/
theorem bv_to_array_round_trip (junk junk2 junk3 : Nat → Nat) (b : bitvec)
    (hfit : b.off ≤ 8 * b.vec.length) (hsz : b.off + 8 ≤ 2 ^ 63) :
    ∃ arr c, bv_to_array junk b = some (b, arr, b.off) ∧
      bv_push_bits junk2 bv_new arr b.off = some c ∧
      c.off = b.off ∧
      (∀ i, i < b.off → ∃ v, bit_at b.vec i = some v ∧ bit_at c.vec i = some v) ∧
      bv_to_array junk3 c = some (c, arr, b.off) := by
  have hn : (b.off + 7) / 8 ≤ b.vec.length := by omega
  have harr : (b.vec.take ((b.off + 7) / 8)).length = (b.off + 7) / 8 := by
    simp [List.length_take, hn]
  obtain ⟨rest, cap, hc⟩ := bv_push_bits_new junk2 _ b.off harr hsz
  refine ⟨b.vec.take ((b.off + 7) / 8), ⟨b.vec.take ((b.off + 7) / 8) ++ rest, cap, b.off⟩,
    bv_to_array_eq junk b hfit, hc, rfl, ?_, ?_⟩
  · intro i hi
    obtain ⟨v, hv⟩ := bit_at_isSome b.vec i (by omega)
    refine ⟨v, hv, ?_⟩
    show bit_at (b.vec.take ((b.off + 7) / 8) ++ rest) i = some v
    rw [bit_at_append_left _ _ _ (by rw [harr]; omega), bit_at_take _ _ _ (by omega), hv]
  · rw [bv_to_array_eq junk3 _ (by simp only [List.length_append, harr]; omega)]
    show some (_, List.take ((b.off + 7) / 8) (b.vec.take ((b.off + 7) / 8) ++ rest), _) = _
    rw [List.take_left' harr]

/-! ## Instances of the general statements -/

theorem bv_to_array_copies_witness :
    twelve_bits.off ≤ 8 * twelve_bits.vec.length ∧
    ∃ arr, bv_to_array ones twelve_bits = some (twelve_bits, arr, twelve_bits.off) ∧
      arr.length = (twelve_bits.off + 7) / 8 ∧
      ∀ i, i < twelve_bits.off →
        ∃ v, bit_at twelve_bits.vec i = some v ∧ bit_at arr i = some v :=
  ⟨by decide, bv_to_array_copies ones twelve_bits (by decide)⟩

theorem bv_to_array_round_trip_witness :
    twelve_bits.off ≤ 8 * twelve_bits.vec.length ∧ twelve_bits.off + 8 ≤ 2 ^ 63 ∧
    ∃ arr c, bv_to_array zeros twelve_bits = some (twelve_bits, arr, twelve_bits.off) ∧
      bv_push_bits ones bv_new arr twelve_bits.off = some c ∧
      c.off = twelve_bits.off ∧
      (∀ i, i < twelve_bits.off →
        ∃ v, bit_at twelve_bits.vec i = some v ∧ bit_at c.vec i = some v) ∧
      bv_to_array zeros c = some (c, arr, twelve_bits.off) :=
  ⟨by decide, by decide,
    bv_to_array_round_trip zeros ones zeros twelve_bits (by decide) (by decide)⟩

/-! ## next_power_of_2, as stated for its callers -/

theorem pow_le_of_lt_pred (j i x : Nat) (h1 : 2 ^ (j - 1) < x) (h2 : x ≤ 2 ^ i) :
    2 ^ j ≤ 2 ^ i := by
  have h3 : 2 ^ (j - 1) < 2 ^ i := lt_of_lt_of_le h1 h2
  have h4 : j - 1 < i := (Nat.pow_lt_pow_iff_right (by norm_num)).mp h3
  exact Nat.pow_le_pow_right (by norm_num) (by omega)

/-- The power of two `2 ^ j` reached from `2 ^ 13` by doubling while it is
below `x` is 8192 for small `x` and the least power of two from `x` on
otherwise. -/
theorem least_pow_facts (j x : Nat) (hj : 13 ≤ j) (hle : x ≤ 2 ^ j)
    (hmin : j = 13 ∨ 2 ^ (j - 1) < x) :
    (x ≤ 8192 → 2 ^ j = 8192) ∧
      (8192 < x → (∃ k, 2 ^ j = 2 ^ k) ∧ x ≤ 2 ^ j ∧ ∀ i, x ≤ 2 ^ i → 2 ^ j ≤ 2 ^ i) := by
  constructor
  · intro hsmall
    rcases hmin with h | h
    · subst h; norm_num
    · by_cases hj13 : j = 13
      · subst hj13; norm_num
      · have h3 : 2 ^ 13 ≤ 2 ^ (j - 1) := Nat.pow_le_pow_right (by norm_num) (by omega)
        norm_num at h3
        omega
  · intro hbig
    refine ⟨⟨j, rfl⟩, hle, ?_⟩
    intro i hi
    rcases hmin with h | h
    · subst h
      have : 2 ^ 13 < 2 ^ i := by
        have : (2:Nat) ^ 13 = 8192 := by norm_num
        omega
      exact le_of_lt this
    · exact pow_le_of_lt_pred j i x h hi

/-- C20: for `x` up to `2 ^ 63`, the largest power of two of a `size_t`,
`next_power_of_2(x)` ends and returns 8192 when `x ≤ 8192`, and otherwise a
power of two that is at least `x` and at most every power of two that is at
least `x`. -/
theorem next_power_of_2_least (x : Nat) (hx : x ≤ 2 ^ 63) :
    ∃ r, next_power_of_2 x = some r ∧ (x ≤ 8192 → r = 8192) ∧
      (8192 < x → (∃ j, r = 2 ^ j) ∧ x ≤ r ∧ ∀ i, x ≤ 2 ^ i → r ≤ 2 ^ i) := by
  obtain ⟨j, hj13, _, hres, hle, hmin⟩ := next_power_of_2_spec x hx
  exact ⟨2 ^ j, hres, least_pow_facts j x hj13 hle hmin⟩

theorem next_power_of_2_least_witness :
    8193 ≤ 2 ^ 63 ∧
    ∃ r, next_power_of_2 8193 = some r ∧ (8193 ≤ 8192 → r = 8192) ∧
      (8192 < 8193 → (∃ j, r = 2 ^ j) ∧ 8193 ≤ r ∧ ∀ i, 8193 ≤ 2 ^ i → r ≤ 2 ^ i) :=
  ⟨by decide, next_power_of_2_least 8193 (by decide)⟩

/-! ## bv_push -/

theorem realloc_getElem_old (junk : Nat → Nat) (l : List Nat) (n i : Nat)
    (hi : i < l.length) (hn : l.length ≤ n) : (realloc junk l n)[i]? = l[i]? := by
  simp only [realloc, List.take_of_length_le hn]
  rw [List.getElem?_append_left hi]

theorem realloc_getElem_new (junk : Nat → Nat) (l : List Nat) (n i : Nat)
    (hi : l.length ≤ i) (hn : i < n) : (realloc junk l n)[i]? = some (junk i % 256) := by
  have hln : l.length ≤ n := by omega
  simp only [realloc, List.take_of_length_le hln]
  rw [List.getElem?_append_right hi]
  have h1 : i - l.length < n - l.length := by omega
  simp [List.getElem?_map, List.getElem?_range h1]
  congr 2
  omega

theorem bit_at_realloc (junk : Nat → Nat) (l : List Nat) (n i : Nat)
    (hi : i / 8 < l.length) (hn : l.length ≤ n) :
    bit_at (realloc junk l n) i = bit_at l i := by
  simp only [bit_at, realloc_getElem_old junk l n (i / 8) hi hn]

/-- Or-ing the mask of bit `m` into byte `idx` sets the bit `8 * idx + m` and
keeps every other bit. -/
theorem bit_at_set_or (l : List Nat) (idx m i : Nat) (hidx : idx < l.length) (hm : m < 8) :
    bit_at (l.set idx ((l[idx] ||| (0x80 >>> m)) % 256)) i
      = if i / 8 = idx ∧ i % 8 = m then some true else bit_at l i := by
  have hi8 : i % 8 < 8 := Nat.mod_lt _ (by norm_num)
  unfold bit_at
  by_cases hb : i / 8 = idx
  · subst hb
    rw [List.getElem?_set_self hidx, List.getElem?_eq_getElem hidx]
    simp only [Option.map_some', true_and]
    rw [mask_test _ _ hi8, mask_test _ _ hi8, testBit_trunc _ _ (by omega),
      Nat.testBit_or, mask_eq_two_pow m hm, Nat.testBit_two_pow]
    by_cases hmi : i % 8 = m
    · have : 7 - m = 7 - i % 8 := by omega
      simp [hmi]
    · have : ¬ (7 - m = 7 - i % 8) := by omega
      simp [hmi, this]
  · rw [List.getElem?_set_ne (fun h => hb h.symm)]
    simp [hb]

theorem inv_pow (b : bitvec) (h : Inv b) : ∃ m, b.nbits = 8 * m ∧ 1024 ≤ m ∧
    b.vec.length = m ∧ b.off ≤ 8 * m := by
  obtain ⟨h1, _, h3, h4, h5, _⟩ := h
  unfold BITVEC_BITS at h4
  exact ⟨b.nbits / 8, by omega, by omega, by omega, by omega⟩

/-- What `bv_push` does to a buffer that satisfies the invariant, when doubling
the capacity does not overflow. -/
theorem bv_push_spec (junk : Nat → Nat) (b : bitvec) (v : Bool) (hinv : Inv b)
    (hsz : b.off = b.nbits → 2 * b.nbits < SIZE_MOD) :
    ∃ b1, bv_push junk b v = some b1 ∧ b1.off = b.off + 1 ∧
      (b.off = b.nbits → b1.nbits = 2 * b.nbits) ∧
      (b.off ≠ b.nbits → b1.nbits = b.nbits) ∧ Inv b1 ∧
      (∀ i, i < b.off → bit_at b1.vec i = bit_at b.vec i) ∧
      (v = true → bit_at b1.vec b.off = some true) := by
  obtain ⟨m, hm8, hm, hlen, hoffm⟩ := inv_pow b hinv
  obtain ⟨hoff, ⟨k, hk⟩, hmod, hmin, hvec, hlt⟩ := hinv
  have hM : SIZE_MOD = 2 ^ 64 := rfl
  have hoff1 : (b.off + 1) % SIZE_MOD = b.off + 1 := by
    apply Nat.mod_eq_of_lt
    by_cases hg : b.off = b.nbits
    · have := hsz hg; omega
    · omega
  by_cases hg : b.nbits = b.off
  · have hdbl : (b.nbits * 2) % SIZE_MOD = 2 * b.nbits := by
      rw [Nat.mul_comm]; exact Nat.mod_eq_of_lt (hsz hg.symm)
    have hnew : 2 * b.nbits / 8 = 2 * m := by omega
    have hdbl2 : (b.off * 2) % SIZE_MOD = 2 * b.off := by rw [← hg]; exact hdbl
    have hnew2 : 2 * b.off / 8 = 2 * m := by rw [← hg]; exact hnew
    have hidx : b.off / 8 = m := by omega
    have hl1 : (realloc junk b.vec (2 * m)).length = 2 * m := length_realloc _ _ _
    have hinv1 : ∀ l : List Nat, l.length = 2 * m →
        Inv ⟨l, 2 * b.nbits, b.off + 1⟩ := by
      intro l hl
      refine ⟨by show b.off + 1 ≤ 2 * b.nbits; omega, ⟨k + 1, ?_⟩,
        by show 2 * b.nbits % 8 = 0; omega,
        by show BITVEC_BITS ≤ 2 * b.nbits; omega,
        by show l.length = 2 * b.nbits / 8; omega,
        by show 2 * b.nbits < SIZE_MOD; exact hsz hg.symm⟩
      show 2 * b.nbits = 2 ^ (k + 1)
      rw [hk, pow_succ]; ring
    cases v
    · refine ⟨⟨realloc junk b.vec (2 * m), 2 * b.nbits, b.off + 1⟩, ?_, rfl,
        fun _ => rfl, fun h => absurd hg.symm h, hinv1 _ hl1, ?_, by simp⟩
      · simp [bv_push, hg, hdbl2, hnew2, hoff1]
      · intro i hi
        exact bit_at_realloc junk b.vec (2 * m) i (by omega) (by omega)
    · have hin : m < (realloc junk b.vec (2 * m)).length := by rw [hl1]; omega
      refine ⟨⟨(realloc junk b.vec (2 * m)).set m
          (((realloc junk b.vec (2 * m))[m] ||| (0x80 >>> (b.off % 8))) % 256),
          2 * b.nbits, b.off + 1⟩, ?_, rfl,
        fun _ => rfl, fun h => absurd hg.symm h,
        hinv1 _ (by rw [List.length_set, hl1]), ?_, ?_⟩
      · simp [bv_push, hg, hdbl2, hnew2, hoff1, hidx, load, store, hin,
          List.getElem?_eq_getElem]
      · intro i hi
        show bit_at (List.set _ _ _) i = _
        rw [bit_at_set_or _ _ _ _ hin (Nat.mod_lt _ (by norm_num))]
        have : ¬ (i / 8 = m ∧ i % 8 = b.off % 8) := by omega
        rw [if_neg this]
        exact bit_at_realloc junk b.vec (2 * m) i (by omega) (by omega)
      · intro _
        show bit_at (List.set _ _ _) b.off = _
        rw [bit_at_set_or _ _ _ _ hin (Nat.mod_lt _ (by norm_num))]
        simp [hidx]
  · have hne : b.off ≠ b.nbits := fun h => hg h.symm
    have hinv1 : ∀ l : List Nat, l.length = m → Inv ⟨l, b.nbits, b.off + 1⟩ := by
      intro l hl
      exact ⟨by show b.off + 1 ≤ b.nbits; omega, ⟨k, hk⟩, hmod, hmin,
        by show l.length = b.nbits / 8; omega, hlt⟩
    cases v
    · refine ⟨⟨b.vec, b.nbits, b.off + 1⟩, ?_, rfl, fun h => absurd h hne,
        fun _ => rfl, hinv1 _ hlen, fun i _ => rfl, by simp⟩
      simp [bv_push, hg, hoff1]
    · have hin : b.off / 8 < b.vec.length := by omega
      refine ⟨⟨b.vec.set (b.off / 8)
          ((b.vec[b.off / 8] ||| (0x80 >>> (b.off % 8))) % 256), b.nbits, b.off + 1⟩,
          ?_, rfl, fun h => absurd h hne, fun _ => rfl,
          hinv1 _ (by rw [List.length_set, hlen]), ?_, ?_⟩
      · simp [bv_push, hg, hoff1, load, store, hin, List.getElem?_eq_getElem]
      · intro i hi
        show bit_at (List.set _ _ _) i = _
        rw [bit_at_set_or _ _ _ _ hin (Nat.mod_lt _ (by norm_num))]
        have : ¬ (i / 8 = b.off / 8 ∧ i % 8 = b.off % 8) := by omega
        rw [if_neg this]
      · intro _
        show bit_at (List.set _ _ _) b.off = _
        rw [bit_at_set_or _ _ _ _ hin (Nat.mod_lt _ (by norm_num))]
        simp

/-- C15: for a buffer that satisfies the invariant (and whose capacity can be
doubled inside `size_t`), `bv_push(b, v)` succeeds and every storage bit below
the old length is the same afterwards, also when the push reallocates. -/
theorem bv_push_keeps_bits (junk : Nat → Nat) (b : bitvec) (v : Bool) (hinv : Inv b)
    (hsz : b.off = b.nbits → 2 * b.nbits < SIZE_MOD) :
    ∃ b1, bv_push junk b v = some b1 ∧
      ∀ i, i < b.off → ∃ x, bit_at b.vec i = some x ∧ bit_at b1.vec i = some x := by
  obtain ⟨b1, hpush, _, _, _, _, hbits, _⟩ := bv_push_spec junk b v hinv hsz
  obtain ⟨m, _, _, hlen, hoffm⟩ := inv_pow b hinv
  refine ⟨b1, hpush, ?_⟩
  intro i hi
  obtain ⟨x, hx⟩ := bit_at_isSome b.vec i (by omega)
  exact ⟨x, hx, by rw [hbits i hi, hx]⟩

theorem inv_bv_new : Inv bv_new := by
  refine ⟨by decide, ⟨13, by decide⟩, by decide, by decide, ?_, by decide⟩
  simp [bv_new, length_calloc]

/-- Pushing a list of bits: the length grows by the number of bits and the
capacity stays the power of two reached by doubling. -/
theorem bv_push_all_spec (junk : Nat → Nat) :
    ∀ (vs : List Bool) (b : bitvec), Inv b → b.off + vs.length ≤ 2 ^ 63 →
      (∃ j, 13 ≤ j ∧ b.nbits = 2 ^ j ∧ (j = 13 ∨ 2 ^ (j - 1) < b.off)) →
      ∃ b1, bv_push_all junk b vs = some b1 ∧ b1.off = b.off + vs.length ∧ Inv b1 ∧
        ∃ j, 13 ≤ j ∧ b1.nbits = 2 ^ j ∧ (j = 13 ∨ 2 ^ (j - 1) < b1.off) := by
  intro vs
  induction vs with
  | nil =>
    intro b hinv _ hj
    exact ⟨b, rfl, by simp, hinv, hj⟩
  | cons v vs ih =>
    intro b hinv hlen hj
    have hM : SIZE_MOD = 2 ^ 64 := rfl
    simp only [List.length_cons] at hlen
    have hsz : b.off = b.nbits → 2 * b.nbits < SIZE_MOD := by
      intro h; rw [hM]; omega
    obtain ⟨b1, hpush, hoff1, hgrow, hkeep, hinv1, _, _⟩ := bv_push_spec junk b v hinv hsz
    obtain ⟨j, hj13, hnb, hmin⟩ := hj
    have hj1 : ∃ j, 13 ≤ j ∧ b1.nbits = 2 ^ j ∧ (j = 13 ∨ 2 ^ (j - 1) < b1.off) := by
      by_cases hg : b.off = b.nbits
      · refine ⟨j + 1, by omega, ?_, Or.inr ?_⟩
        · rw [hgrow hg, hnb, pow_succ]; ring
        · simp only [Nat.add_sub_cancel]
          omega
      · refine ⟨j, hj13, by rw [hkeep hg, hnb], ?_⟩
        rcases hmin with h | h
        · exact Or.inl h
        · exact Or.inr (by omega)
    obtain ⟨b2, hrest, hoff2, hinv2, hj2⟩ := ih b1 hinv1 (by omega) hj1
    refine ⟨b2, ?_, by simp only [List.length_cons]; omega, hinv2, hj2⟩
    simp [bv_push_all, hpush, hrest]

/-- The capacity after pushing the bits `vs` onto a new buffer. -/
theorem bv_push_all_new (junk : Nat → Nat) (vs : List Bool) (hlen : vs.length ≤ 2 ^ 63) :
    ∃ b, bv_push_all junk bv_new vs = some b ∧ b.off = vs.length ∧
      (vs.length ≤ 8192 → b.nbits = 8192) ∧
      (8192 < vs.length →
        (∃ j, b.nbits = 2 ^ j) ∧ vs.length ≤ b.nbits ∧
          ∀ i, vs.length ≤ 2 ^ i → b.nbits ≤ 2 ^ i) := by
  obtain ⟨b, hpush, hoff, hinv, j, hj13, hnb, hmin⟩ :=
    bv_push_all_spec junk vs bv_new inv_bv_new (by simp only [bv_new]; omega)
      ⟨13, le_refl _, by decide, Or.inl rfl⟩
  have hoff0 : b.off = vs.length := by simpa [bv_new] using hoff
  have hle : vs.length ≤ 2 ^ j := by rw [← hnb, ← hoff0]; exact hinv.1
  have hfacts := least_pow_facts j vs.length hj13 hle (by rw [← hoff0]; exact hmin)
  rw [← hnb] at hfacts
  exact ⟨b, hpush, hoff0, hfacts⟩

/-- C14: on a buffer that satisfies the invariant (and whose capacity can be
doubled inside `size_t`) `bv_push` doubles `nbits` when the length equals the
capacity and leaves it as it is otherwise.  After `k` pushes onto `bv_new()`
(`k` up to `2 ^ 63`) the capacity is 8192 for `k ≤ 8192` and otherwise the least
power of two that is at least `k`; after 8193 pushes it is 16384. -/
theorem bv_push_capacity (junk : Nat → Nat) :
    (∀ (b : bitvec) (v : Bool), Inv b → 2 * b.nbits < SIZE_MOD →
      ∃ b1, bv_push junk b v = some b1 ∧
        (b1.nbits = 2 * b.nbits ↔ b.off = b.nbits) ∧
        (b1.nbits = b.nbits ↔ b.off ≠ b.nbits)) ∧
    (∀ vs : List Bool, vs.length ≤ 2 ^ 63 →
      ∃ b, bv_push_all junk bv_new vs = some b ∧ b.off = vs.length ∧
        (vs.length ≤ 8192 → b.nbits = 8192) ∧
        (8192 < vs.length →
          (∃ j, b.nbits = 2 ^ j) ∧ vs.length ≤ b.nbits ∧
            ∀ i, vs.length ≤ 2 ^ i → b.nbits ≤ 2 ^ i)) ∧
    (∀ vs : List Bool, vs.length = 8193 →
      ∃ b, bv_push_all junk bv_new vs = some b ∧ b.nbits = 16384) := by
  refine ⟨?_, ?_, ?_⟩
  · intro b v hinv hsz
    obtain ⟨b1, hpush, _, hgrow, hkeep, hinv1, _, _⟩ :=
      bv_push_spec junk b v hinv (fun _ => hsz)
    have h0 := hinv.2.2.2.1
    unfold BITVEC_BITS at h0
    refine ⟨b1, hpush, ?_, ?_⟩
    · constructor
      · intro h
        by_contra hne
        have := hkeep hne
        omega
      · exact hgrow
    · constructor
      · intro h hg
        have := hgrow hg
        omega
      · exact hkeep
  · intro vs hlen
    exact bv_push_all_new junk vs hlen
  · intro vs hlen
    obtain ⟨b, hpush, _, _, hbig⟩ := bv_push_all_new junk vs (by rw [hlen]; norm_num)
    obtain ⟨⟨j, hj⟩, hle, hleast⟩ := hbig (by omega)
    refine ⟨b, hpush, ?_⟩
    have h14 := hleast 14 (by rw [hlen]; norm_num)
    rw [hlen] at hle
    rw [hj] at hle h14 ⊢
    have hj14 : 13 < j := by
      by_contra hcon
      have : 2 ^ j ≤ 2 ^ 13 := Nat.pow_le_pow_right (by norm_num) (by omega)
      norm_num at this
      omega
    have : 2 ^ 14 ≤ 2 ^ j := Nat.pow_le_pow_right (by norm_num) (by omega)
    norm_num at this h14
    omega

/-! ## The shift loop of bv_push_bytes -/

/-- The loop run over `pre ++ a :: (data ++ post)`, with `a` at index
`base + i`, leaves `pre ++ shift_bytes sbits a data ++ post`. -/
theorem shift_loop_append (base sbits : Nat) :
    ∀ (data pre post : List Nat) (a i : Nat), pre.length = base + i →
      shift_loop base sbits data.length i (pre ++ a :: (data ++ post))
        = some (pre ++ shift_bytes sbits a data ++ post) := by
  intro data
  induction data with
  | nil =>
    intro pre post a i _
    simp [shift_loop, shift_bytes]
  | cons d ds ih =>
    intro pre post a i hpre
    have h0 : (pre ++ a :: (d :: ds ++ post))[base + i]? = some a := by
      rw [List.getElem?_append_right (by omega)]
      simp [hpre]
    have h1 : (pre ++ a :: (d :: ds ++ post))[base + i + 1]? = some d := by
      rw [List.getElem?_append_right (by omega)]
      have : base + i + 1 - pre.length = 1 := by omega
      simp [this]
    have hlen : base + i < (pre ++ a :: (d :: ds ++ post)).length := by
      simp only [List.length_append, List.length_cons]; omega
    have hset1 : (pre ++ a :: (d :: ds ++ post)).set (base + i) ((a ||| d >>> sbits) % 256)
        = pre ++ ((a ||| d >>> sbits) % 256) :: (d :: ds ++ post) := by
      rw [List.set_append_right _ _ (by omega)]
      have : base + i - pre.length = 0 := by omega
      simp [this]
    have h2 : (pre ++ ((a ||| d >>> sbits) % 256) :: (d :: ds ++ post))[base + i + 1]?
        = some d := by
      rw [List.getElem?_append_right (by omega)]
      have : base + i + 1 - pre.length = 1 := by omega
      simp [this]
    have hlen2 : base + i + 1 < (pre ++ ((a ||| d >>> sbits) % 256) :: (d :: ds ++ post)).length := by
      simp only [List.length_append, List.length_cons]; omega
    have hset2 : (pre ++ ((a ||| d >>> sbits) % 256) :: (d :: ds ++ post)).set (base + i + 1)
          ((d <<< (8 - sbits)) % 256)
        = (pre ++ [(a ||| d >>> sbits) % 256]) ++ ((d <<< (8 - sbits)) % 256) :: (ds ++ post) := by
      rw [List.set_append_right _ _ (by omega)]
      have : base + i + 1 - pre.length = 1 := by omega
      simp [this]
    have hrec := ih (pre ++ [(a ||| d >>> sbits) % 256]) post ((d <<< (8 - sbits)) % 256)
      (i + 1) (by simp only [List.length_append, List.length_singleton]; omega)
    simp only [List.length_cons, shift_loop, load, store, h0, h1, Option.bind_eq_bind,
      Option.some_bind, hlen, if_true, hset1, h2, hlen2, hset2]
    rw [hrec]
    simp [shift_bytes]

theorem length_shift_bytes (sbits : Nat) :
    ∀ (data : List Nat) (c : Nat), (shift_bytes sbits c data).length = data.length + 1 := by
  intro data
  induction data with
  | nil => intro c; simp [shift_bytes]
  | cons d ds ih => intro c; simp [shift_bytes, ih]

theorem bit_at_cons (x : Nat) (l : List Nat) (i : Nat) :
    bit_at (x :: l) i = if i < 8 then some (x.testBit (7 - i)) else bit_at l (i - 8) := by
  unfold bit_at
  by_cases hi : i < 8
  · have h0 : i / 8 = 0 := by omega
    have h1 : i % 8 = i := by omega
    simp only [h0, h1, hi, if_true, List.getElem?_cons_zero, Option.map_some']
    rw [mask_test _ _ hi]
  · have h0 : i / 8 = (i - 8) / 8 + 1 := by omega
    have h1 : i % 8 = (i - 8) % 8 := by omega
    simp only [h0, h1, hi, if_false, List.getElem?_cons_succ]

theorem bit_at_append_right (l r : List Nat) (i : Nat) (h : 8 * l.length ≤ i) :
    bit_at (l ++ r) i = bit_at r (i - 8 * l.length) := by
  unfold bit_at
  have h0 : l.length ≤ i / 8 := by omega
  have h1 : (i - 8 * l.length) / 8 = i / 8 - l.length := by omega
  have h2 : (i - 8 * l.length) % 8 = i % 8 := by omega
  rw [List.getElem?_append_right h0, h1, h2]

theorem testBit_byte_high (d n : Nat) (hd : d < 256) (hn : 8 ≤ n) : d.testBit n = false := by
  apply Nat.testBit_lt_two_pow
  calc d < 2 ^ 8 := by norm_num; exact hd
    _ ≤ 2 ^ n := Nat.pow_le_pow_right (by norm_num) hn

/-- The byte written by one round of the loop, bit by bit. -/
theorem testBit_merged (c d s k : Nat) (hd : d < 256) (hk : k < 8) :
    ((c ||| d >>> s) % 256).testBit (7 - k)
      = (c.testBit (7 - k) || (decide (s ≤ k) && d.testBit (7 - (k - s)))) := by
  rw [testBit_trunc _ _ (by omega), Nat.testBit_or, Nat.testBit_shiftRight]
  by_cases hsk : s ≤ k
  · have : s + (7 - k) = 7 - (k - s) := by omega
    simp [hsk, this]
  · rw [testBit_byte_high d _ hd (by omega)]
    simp [hsk]

/-- The carry left by one round of the loop, bit by bit. -/
theorem testBit_carry (d s k : Nat) (hs : 0 < s) (hs8 : s < 8) (hk : k < 8) :
    ((d <<< (8 - s)) % 256).testBit (7 - k)
      = (decide (k < s) && d.testBit (7 - (8 - s + k))) := by
  rw [testBit_trunc _ _ (by omega), Nat.testBit_shiftLeft]
  by_cases hks : k < s
  · have h1 : 7 - k ≥ 8 - s := by omega
    have h2 : 7 - k - (8 - s) = 7 - (8 - s + k) := by omega
    simp [hks, h1, h2]
  · have h1 : ¬ (7 - k ≥ 8 - s) := by omega
    simp [hks, h1]

/-- The bits of the bytes the loop leaves: the top `s` bits of the first byte
are those of the carry, and from bit `s` on come the bits of the data. -/
theorem bit_at_shift_bytes (s : Nat) (hs : 0 < s) (hs8 : s < 8) :
    ∀ (data : List Nat) (c : Nat), (∀ x ∈ data, x < 256) →
      (∀ k, k < s → bit_at (shift_bytes s c data) k = some (c.testBit (7 - k))) ∧
      ((∀ k, s ≤ k → k < 8 → c.testBit (7 - k) = false) →
        ∀ k, k < 8 * data.length → bit_at (shift_bytes s c data) (s + k) = bit_at data k) := by
  intro data
  induction data with
  | nil =>
    intro c _
    constructor
    · intro k hk
      simp only [shift_bytes, bit_at_cons]
      rw [if_pos (by omega)]
    · intro _ k hk
      simp at hk
  | cons d ds ih =>
    intro c hdata
    have hd : d < 256 := hdata d (List.mem_cons_self _ _)
    have hds : ∀ x ∈ ds, x < 256 := fun x hx => hdata x (List.mem_cons_of_mem _ hx)
    obtain ⟨ih1, ih2⟩ := ih ((d <<< (8 - s)) % 256) hds
    constructor
    · intro k hk
      simp only [shift_bytes, bit_at_cons]
      rw [if_pos (by omega), testBit_merged c d s k hd (by omega)]
      have : ¬ s ≤ k := by omega
      simp [this]
    · intro hc k hk
      simp only [List.length_cons] at hk
      simp only [shift_bytes]
      rw [bit_at_cons, bit_at_cons]
      by_cases h8 : s + k < 8
      · rw [if_pos h8, if_pos (by omega), testBit_merged c d s (s + k) hd h8,
          hc (s + k) (by omega) h8]
        have : s + k - s = k := by omega
        simp [this]
      · rw [if_neg h8]
        by_cases hk8 : k < 8
        · rw [if_pos hk8, ih1 (s + k - 8) (by omega),
            testBit_carry d s (s + k - 8) hs hs8 (by omega)]
          have h1 : s + k - 8 < s := by omega
          have h2 : 7 - (8 - s + (s + k - 8)) = 7 - k := by omega
          simp [h1, h2]
        · rw [if_neg hk8]
          have h1 : s + k - 8 = s + (k - 8) := by omega
          rw [h1]
          apply ih2
          · intro k2 hk2 hk28
            rw [testBit_carry d s k2 hs hs8 hk28]
            have : ¬ k2 < s := by omega
            simp [this]
          · omega

/-! ## bv_push_bytes: growth, then copy -/

theorem bv_push_bytes_steps (junk : Nat → Nat) (b : bitvec) (data : List Nat) (n : Nat) :
    bv_push_bytes junk b data n
      = (grow_step junk b n).bind (fun b1 =>
          (copy_step b1 data n).map
            (fun l => { b1 with vec := l, off := (b1.off + 8 * n) % SIZE_MOD })) := rfl

theorem next_power_of_2_loop_zero (x : Nat) (hx : 0 < x) :
    ∀ fuel, next_power_of_2_loop fuel 0 x = none := by
  intro fuel
  induction fuel with
  | zero => rfl
  | succ fuel ih => simp [next_power_of_2_loop, hx, ih]

theorem next_power_of_2_loop_some (x : Nat) :
    ∀ fuel k r, k ≤ 63 → next_power_of_2_loop fuel (2 ^ k) x = some r →
      ∃ j, k ≤ j ∧ j ≤ 63 ∧ r = 2 ^ j ∧ x ≤ r := by
  intro fuel
  induction fuel with
  | zero => intro k r _ h; simp [next_power_of_2_loop] at h
  | succ fuel ih =>
    intro k r hk h
    by_cases hlt : 2 ^ k < x
    · simp only [next_power_of_2_loop, hlt, if_true] at h
      by_cases hk63 : k = 63
      · subst hk63
        have h0 : (2 ^ 63 <<< 1) % SIZE_MOD = 0 := by decide
        rw [h0, next_power_of_2_loop_zero x (by omega)] at h
        simp at h
      · have hshift : (2 ^ k <<< 1) % SIZE_MOD = 2 ^ (k + 1) := by
          have hpow : 2 ^ k <<< 1 = 2 ^ (k + 1) := by
            rw [Nat.shiftLeft_eq]; ring
          rw [hpow]
          apply Nat.mod_eq_of_lt
          unfold SIZE_MOD
          exact Nat.pow_lt_pow_right (by norm_num) (by omega)
        rw [hshift] at h
        obtain ⟨j, hj1, hj2, hr, hx⟩ := ih (k + 1) r (by omega) h
        exact ⟨j, by omega, hj2, hr, hx⟩
    · simp only [next_power_of_2_loop, hlt, if_false, Option.some.injEq] at h
      exact ⟨k, le_refl k, hk, h.symm, by omega⟩

/-- Whenever `next_power_of_2` returns, the result is a power of two of a
`size_t`, at least 8192 and at least `x`. -/
theorem next_power_of_2_some (x r : Nat) (h : next_power_of_2 x = some r) :
    ∃ j, 13 ≤ j ∧ j ≤ 63 ∧ r = 2 ^ j ∧ x ≤ r := by
  have h13 : BITVEC_BITS = 2 ^ 13 := by norm_num [BITVEC_BITS]
  unfold next_power_of_2 at h
  rw [h13] at h
  exact next_power_of_2_loop_some x 64 13 r (by norm_num) h

theorem pow_ge_13 (j : Nat) (hj : 13 ≤ j) : ∃ m, 2 ^ j = 8 * m ∧ 1024 ≤ m := by
  refine ⟨2 ^ (j - 3), ?_, ?_⟩
  · have : j = 3 + (j - 3) := by omega
    conv_lhs => rw [this, pow_add]
    norm_num
  · calc 1024 = 2 ^ 10 := by norm_num
      _ ≤ 2 ^ (j - 3) := Nat.pow_le_pow_right (by norm_num) (by omega)

/-- The growth step keeps the invariant, the length and the bytes of the
storage, and leaves room for the new bits and one more. -/
theorem grow_step_some (junk : Nat → Nat) (b b1 : bitvec) (n : Nat) (hinv : Inv b)
    (hsz : b.off + 8 * n + 8 < SIZE_MOD) (h : grow_step junk b n = some b1) :
    Inv b1 ∧ b1.off = b.off ∧ b.off + 8 * n + 1 ≤ b1.nbits ∧
      ∀ k, k ≤ b.vec.length → b1.vec.take k = b.vec.take k := by
  obtain ⟨m, hm8, hm, hlen, hoffm⟩ := inv_pow b hinv
  have hM : SIZE_MOD = 2 ^ 64 := rfl
  have hneed : (b.off + 8 * n + 1) % SIZE_MOD = b.off + 8 * n + 1 := by
    apply Nat.mod_eq_of_lt; omega
  unfold grow_step at h
  simp only [hneed] at h
  by_cases hgrow : b.nbits < b.off + 8 * n + 1
  · simp only [hgrow, if_true] at h
    have hround : (if (b.off + 8 * n + 1) % 8 ≠ 0
          then (b.off + 8 * n + 1 + (8 - (b.off + 8 * n + 1) % 8)) % SIZE_MOD
          else b.off + 8 * n + 1) ≥ b.off + 8 * n + 1 := by
      split
      · rw [Nat.mod_eq_of_lt (by omega)]; omega
      · exact le_refl _
    cases hnp : next_power_of_2 (if (b.off + 8 * n + 1) % 8 ≠ 0
          then (b.off + 8 * n + 1 + (8 - (b.off + 8 * n + 1) % 8)) % SIZE_MOD
          else b.off + 8 * n + 1) with
    | none => rw [hnp] at h; simp at h
    | some cap =>
      rw [hnp] at h
      simp only [Option.map_some', Option.some.injEq] at h
      obtain ⟨j, hj13, hj63, hcap, hle⟩ := next_power_of_2_some _ _ hnp
      obtain ⟨m1, hm1, hm1024⟩ := pow_ge_13 j hj13
      have hcapM : cap < SIZE_MOD := by
        rw [hcap]; unfold SIZE_MOD
        exact Nat.pow_lt_pow_right (by norm_num) (by omega)
      subst h
      refine ⟨⟨?_, ⟨j, hcap⟩, ?_, ?_, ?_, hcapM⟩, rfl, ?_, ?_⟩
      · show b.off ≤ cap; omega
      · show cap % 8 = 0; omega
      · show BITVEC_BITS ≤ cap; unfold BITVEC_BITS; omega
      · show (realloc junk b.vec (cap / 8)).length = cap / 8
        exact length_realloc _ _ _
      · show b.off + 8 * n + 1 ≤ cap; omega
      · intro k hk
        show (realloc junk b.vec (cap / 8)).take k = _
        exact realloc_take_of_le junk b.vec _ k hk (by omega)
  · simp only [hgrow, if_false, Option.some.injEq] at h
    subst h
    exact ⟨hinv, rfl, by omega, fun _ _ => rfl⟩

/-- The growth step ends when the capacity it needs is at most `2 ^ 63`. -/
theorem grow_step_total (junk : Nat → Nat) (b : bitvec) (n : Nat)
    (hsz : b.off + 8 * n + 8 ≤ 2 ^ 63) : ∃ b1, grow_step junk b n = some b1 := by
  have hM : SIZE_MOD = 2 ^ 64 := rfl
  have hneed : (b.off + 8 * n + 1) % SIZE_MOD = b.off + 8 * n + 1 := by
    apply Nat.mod_eq_of_lt; omega
  unfold grow_step
  simp only [hneed]
  by_cases hgrow : b.nbits < b.off + 8 * n + 1
  · simp only [hgrow, if_true]
    have hround : (if (b.off + 8 * n + 1) % 8 ≠ 0
          then (b.off + 8 * n + 1 + (8 - (b.off + 8 * n + 1) % 8)) % SIZE_MOD
          else b.off + 8 * n + 1) ≤ 2 ^ 63 := by
      split
      · rw [Nat.mod_eq_of_lt (by omega)]; omega
      · omega
    obtain ⟨j, _, _, hres, _, _⟩ := next_power_of_2_spec _ hround
    rw [hres]
    exact ⟨_, rfl⟩
  · simp only [hgrow, if_false]
    exact ⟨b, rfl⟩

theorem copy_step_aligned (b1 : bitvec) (data : List Nat) (n : Nat) (hlen : data.length = n)
    (hal : b1.off % 8 = 0) (hfit : b1.off / 8 + n ≤ b1.vec.length) :
    copy_step b1 data n
      = some (b1.vec.take (b1.off / 8) ++ data ++ b1.vec.drop (b1.off / 8 + n)) := by
  have htake : data.take n = data := by rw [← hlen]; exact List.take_length data
  simp [copy_step, hal, memcpy, hfit, hlen, htake]

theorem copy_step_unaligned (b1 : bitvec) (data : List Nat) (n : Nat) (hlen : data.length = n)
    (hs : b1.off % 8 ≠ 0) (hfit : b1.off / 8 + n + 1 ≤ b1.vec.length) :
    copy_step b1 data n
      = some (b1.vec.take (b1.off / 8)
          ++ shift_bytes (b1.off % 8) (b1.vec.getD (b1.off / 8) 0) data
          ++ b1.vec.drop (b1.off / 8 + 1 + n)) := by
  have htake : data.take n = data := by rw [← hlen]; exact List.take_length data
  have hbase : b1.off / 8 < b1.vec.length := by omega
  have hpre : b1.vec.take (b1.off / 8 + 1)
      = b1.vec.take (b1.off / 8) ++ [b1.vec.getD (b1.off / 8) 0] := by
    rw [List.take_succ, List.getD_eq_getElem?_getD, List.getElem?_eq_getElem hbase]
    rfl
  have hcopy : memcpy b1.vec (b1.off / 8 + 1) data n
      = some (b1.vec.take (b1.off / 8)
          ++ b1.vec.getD (b1.off / 8) 0 :: (data ++ b1.vec.drop (b1.off / 8 + 1 + n))) := by
    have h1 : b1.off / 8 + 1 + n ≤ b1.vec.length := by omega
    simp [memcpy, h1, hlen, htake, hpre]
  have hloop := shift_loop_append (b1.off / 8) (b1.off % 8) data (b1.vec.take (b1.off / 8))
    (b1.vec.drop (b1.off / 8 + 1 + n)) (b1.vec.getD (b1.off / 8) 0) 0
    (by simp only [List.length_take]; omega)
  rw [hlen] at hloop
  simp only [copy_step, hs, if_false, hcopy, Option.bind_eq_bind, Option.some_bind, hloop]

/-- After a growth step that returned, the copy succeeds, keeps the size of the
storage and the bytes below the tail, and `bv_push_bytes` returns the result. -/
theorem bv_push_bytes_after_grow (junk : Nat → Nat) (b b1 : bitvec) (data : List Nat) (n : Nat)
    (hinv : Inv b) (hlen : data.length = n) (hsz : b.off + 8 * n + 8 < SIZE_MOD)
    (hg : grow_step junk b n = some b1) :
    ∃ l, copy_step b1 data n = some l ∧ l.length = b1.vec.length ∧
      bv_push_bytes junk b data n = some ⟨l, b1.nbits, b.off + 8 * n⟩ ∧
      (b.off % 8 = 0 → ∃ post, l = b.vec.take (b.off / 8) ++ data ++ post) ∧
      (b.off % 8 ≠ 0 → ∃ post, l = b.vec.take (b.off / 8)
          ++ shift_bytes (b.off % 8) (b.vec.getD (b.off / 8) 0) data ++ post) := by
  obtain ⟨hinv1, hoff1, hroom, hpre⟩ := grow_step_some junk b b1 n hinv hsz hg
  obtain ⟨m, hm8, hm, hlenb, hoffm⟩ := inv_pow b hinv
  obtain ⟨m1, hm18, hm1, hlen1, hoffm1⟩ := inv_pow b1 hinv1
  have hM : SIZE_MOD = 2 ^ 64 := rfl
  have hoffn : (b.off + 8 * n) % SIZE_MOD = b.off + 8 * n := by
    apply Nat.mod_eq_of_lt; omega
  by_cases hal : b.off % 8 = 0
  · have hc := copy_step_aligned b1 data n hlen (by rw [hoff1]; exact hal)
      (by rw [hoff1]; omega)
    rw [hoff1, hpre (b.off / 8) (by omega)] at hc
    refine ⟨_, hc, ?_, ?_, fun _ => ⟨_, rfl⟩, fun h => absurd hal h⟩
    · simp only [List.length_append, List.length_take, List.length_drop, hlen]
      omega
    · rw [bv_push_bytes_steps, hg]
      simp only [Option.bind_eq_bind, Option.some_bind, hc, Option.map_some', hoff1, hoffn]
  · have hc := copy_step_unaligned b1 data n hlen (by rw [hoff1]; exact hal)
      (by rw [hoff1]; omega)
    have hbase : b.off / 8 < b.vec.length := by omega
    have hbyte : b1.vec.getD (b.off / 8) 0 = b.vec.getD (b.off / 8) 0 := by
      have h1 := hpre (b.off / 8 + 1) (by omega)
      have h2 : (b1.vec.take (b.off / 8 + 1))[b.off / 8]? = (b.vec.take (b.off / 8 + 1))[b.off / 8]? := by
        rw [h1]
      rw [List.getElem?_take_of_succ, List.getElem?_take_of_succ] at h2
      simp only [List.getD_eq_getElem?_getD, h2]
    rw [hoff1, hpre (b.off / 8) (by omega), hbyte] at hc
    refine ⟨_, hc, ?_, ?_, fun h => absurd h hal, fun _ => ⟨_, rfl⟩⟩
    · simp only [List.length_append, List.length_take, List.length_drop, length_shift_bytes,
        hlen]
      omega
    · rw [bv_push_bytes_steps, hg]
      simp only [Option.bind_eq_bind, Option.some_bind, hc, Option.map_some', hoff1, hoffn]

theorem bit_at_byte (l : List Nat) (i : Nat) (h : i / 8 < l.length) :
    bit_at l i = some ((l.getD (i / 8) 0).testBit (7 - i % 8)) := by
  unfold bit_at
  rw [List.getD_eq_getElem?_getD, List.getElem?_eq_getElem h]
  simp only [Option.map_some', Option.getD_some]
  rw [mask_test _ _ (Nat.mod_lt _ (by norm_num))]

theorem bit_at_below_take (l rest : List Nat) (a i : Nat) (ha : a ≤ l.length)
    (hi : i / 8 < a) : bit_at (l.take a ++ rest) i = bit_at l i := by
  rw [bit_at_append_left _ _ _ (by simp only [List.length_take]; omega),
    bit_at_take _ _ _ hi]

/-- The storage bits after `bv_push_bytes`, for a tail whose byte has no bit
set from the length on. -/
theorem bv_push_bytes_bits (junk : Nat → Nat) (b : bitvec) (data : List Nat) (n : Nat)
    (hinv : Inv b) (hlen : data.length = n) (hbytes : ∀ x ∈ data, x < 256)
    (hsz : b.off + 8 * n + 8 ≤ 2 ^ 63)
    (htail : ∀ i, b.off ≤ i → i / 8 = b.off / 8 → bit_at b.vec i ≠ some true) :
    ∃ b1, bv_push_bytes junk b data n = some b1 ∧ b1.off = b.off + 8 * n ∧
      (∃ b0, grow_step junk b n = some b0 ∧ b1.nbits = b0.nbits ∧ Inv b0) ∧
      b1.vec.length = b1.nbits / 8 ∧
      (∀ i, i < b.off → bit_at b1.vec i = bit_at b.vec i) ∧
      (∀ k, k < 8 * n → bit_at b1.vec (b.off + k) = bit_at data k) := by
  have hM : SIZE_MOD = 2 ^ 64 := rfl
  obtain ⟨b0, hg⟩ := grow_step_total junk b n hsz
  obtain ⟨hinv0, _, _, _⟩ := grow_step_some junk b b0 n hinv (by omega) hg
  obtain ⟨l, _, hll, hpush, hshape0, hshape1⟩ :=
    bv_push_bytes_after_grow junk b b0 data n hinv hlen (by omega) hg
  obtain ⟨m, hm8, hm, hlenb, hoffm⟩ := inv_pow b hinv
  have hA : (b.vec.take (b.off / 8)).length = b.off / 8 := by
    simp only [List.length_take]; omega
  refine ⟨_, hpush, rfl, ⟨b0, hg, rfl, hinv0⟩, ?_, ?_, ?_⟩
  · show l.length = b0.nbits / 8
    rw [hll]; exact hinv0.2.2.2.2.1
  · intro i hi
    show bit_at l i = _
    by_cases hal : b.off % 8 = 0
    · obtain ⟨post, hl⟩ := hshape0 hal
      rw [hl, List.append_assoc]
      exact bit_at_below_take b.vec _ _ i (by omega) (by omega)
    · obtain ⟨post, hl⟩ := hshape1 hal
      rw [hl, List.append_assoc]
      by_cases hlow : i / 8 < b.off / 8
      · exact bit_at_below_take b.vec _ _ i (by omega) hlow
      · have hi8 : i / 8 = b.off / 8 := by omega
        rw [bit_at_append_right _ _ _ (by rw [hA]; omega), hA,
          bit_at_append_left _ _ _ (by rw [length_shift_bytes]; omega)]
        obtain ⟨h1, _⟩ := bit_at_shift_bytes (b.off % 8) (by omega)
          (Nat.mod_lt _ (by norm_num)) data (b.vec.getD (b.off / 8) 0) hbytes
        rw [h1 _ (by omega), bit_at_byte b.vec i (by omega), hi8]
        have : i - 8 * (b.off / 8) = i % 8 := by omega
        rw [this]
  · intro k hk
    show bit_at l (b.off + k) = _
    by_cases hal : b.off % 8 = 0
    · obtain ⟨post, hl⟩ := hshape0 hal
      rw [hl, bit_at_append_left _ _ _
        (by simp only [List.length_append, hA, hlen]; omega),
        bit_at_append_right _ _ _ (by rw [hA]; omega), hA]
      have : b.off + k - 8 * (b.off / 8) = k := by omega
      rw [this]
    · obtain ⟨post, hl⟩ := hshape1 hal
      have hc : ∀ k, b.off % 8 ≤ k → k < 8 →
          (b.vec.getD (b.off / 8) 0).testBit (7 - k) = false := by
        intro k2 hk2 hk28
        have h1 := htail (8 * (b.off / 8) + k2) (by omega) (by omega)
        rw [bit_at_byte b.vec _ (by omega)] at h1
        have h2 : (8 * (b.off / 8) + k2) / 8 = b.off / 8 := by omega
        have h3 : (8 * (b.off / 8) + k2) % 8 = k2 := by omega
        rw [h2, h3] at h1
        simpa using h1
      obtain ⟨_, h2⟩ := bit_at_shift_bytes (b.off % 8) (by omega)
        (Nat.mod_lt _ (by norm_num)) data (b.vec.getD (b.off / 8) 0) hbytes
      rw [hl, List.append_assoc, bit_at_append_right _ _ _ (by rw [hA]; omega), hA,
        bit_at_append_left _ _ _ (by rw [length_shift_bytes]; omega)]
      have : b.off + k - 8 * (b.off / 8) = b.off % 8 + k := by omega
      rw [this]
      exact h2 hc k (by rw [hlen]; exact hk)

/-! ## The invariant along the public operations -/

theorem bv_init_spec (v : Bool) : ∃ b, bv_init v = some b ∧ Inv b ∧ b.off = 0 := by
  cases v
  · exact ⟨bv_new, rfl, inv_bv_new, rfl⟩
  · have hl : (calloc (BITVEC_BITS / 8)).length = BITVEC_BITS / 8 := length_calloc _
    refine ⟨⟨List.replicate (BITVEC_BITS / 8) (0xff % 256)
        ++ (calloc (BITVEC_BITS / 8)).drop (BITVEC_BITS / 8), BITVEC_BITS, 0⟩, ?_, ?_, rfl⟩
    · simp only [bv_init, bv_new, memset, hl, le_refl, if_true, Option.map_some']
    · refine ⟨Nat.zero_le _, ⟨13, by decide⟩, by decide, le_refl _, ?_, by decide⟩
      simp only [List.length_append, List.length_replicate, List.length_drop, hl]
      omega

theorem inv_of_fields (b b1 : bitvec) (hinv : Inv b) (hn : b1.nbits = b.nbits)
    (hl : b1.vec.length = b.vec.length) (ho : b1.off ≤ b.nbits) : Inv b1 := by
  obtain ⟨_, hk, hmod, hmin, hvec, hlt⟩ := hinv
  exact ⟨by rw [hn]; exact ho, by rw [hn]; exact hk, by rw [hn]; exact hmod,
    by rw [hn]; exact hmin, by rw [hn, hl]; exact hvec, by rw [hn]; exact hlt⟩

theorem inv_bv_set (b b1 : bitvec) (i : Nat) (v : Bool) (hinv : Inv b)
    (h : bv_set b i v = some b1) : Inv b1 := by
  unfold bv_set at h
  by_cases hi : i < b.off
  · simp only [hi, if_true, Option.bind_eq_some, Option.map_eq_some'] at h
    obtain ⟨mask, _, x, _, l, hl, hb1⟩ := h
    unfold store at hl
    by_cases hlen : i / 8 < b.vec.length
    · simp only [hlen, if_true, Option.some.injEq] at hl
      subst hl
      subst hb1
      exact inv_of_fields b _ hinv rfl (by simp) hinv.1
    · simp [hlen] at hl
  · simp [hi] at h

theorem inv_bv_pop (b b1 : bitvec) (r : Bool) (hinv : Inv b)
    (h : bv_pop b = some (r, b1)) : Inv b1 := by
  unfold bv_pop at h
  by_cases hi : 0 < b.off
  · simp only [hi, if_true, load, store] at h
    cases hx : b.vec[b.off / 8]? with
    | none => rw [hx] at h; simp at h
    | some x =>
      rw [hx] at h
      simp only [Option.bind_eq_bind, Option.some_bind] at h
      by_cases hl : b.off / 8 < b.vec.length
      · simp only [hl, if_true, Option.map_some', Option.some.injEq, Prod.mk.injEq] at h
        obtain ⟨_, h2⟩ := h
        subst h2
        have := hinv.1
        exact inv_of_fields b _ hinv rfl (by simp) (by show b.off - 1 ≤ b.nbits; omega)
      · simp [hl] at h
  · simp [hi] at h

theorem inv_bv_push (junk : Nat → Nat) (b b1 : bitvec) (v : Bool) (hinv : Inv b)
    (hsz : b.off = b.nbits → 2 * b.nbits < SIZE_MOD) (h : bv_push junk b v = some b1) :
    Inv b1 := by
  obtain ⟨b2, hpush, _, _, _, hinv2, _, _⟩ := bv_push_spec junk b v hinv hsz
  rw [hpush] at h
  simp only [Option.some.injEq] at h
  rw [← h]; exact hinv2

/-- Whenever `bv_push_bytes` returns, the invariant holds afterwards, the
length has grown by `8 * n` and stays below the capacity. -/
theorem inv_bv_push_bytes (junk : Nat → Nat) (b b1 : bitvec) (data : List Nat) (n : Nat)
    (hinv : Inv b) (hlen : data.length = n) (hsz : b.off + 8 * n + 8 < SIZE_MOD)
    (h : bv_push_bytes junk b data n = some b1) :
    Inv b1 ∧ b1.off = b.off + 8 * n ∧ b1.off < b1.nbits := by
  cases hg : grow_step junk b n with
  | none =>
    rw [bv_push_bytes_steps, hg] at h
    simp at h
  | some b0 =>
    obtain ⟨hinv0, hoff0, hroom, _⟩ := grow_step_some junk b b0 n hinv hsz hg
    obtain ⟨l, _, hll, hpush, _, _⟩ :=
      bv_push_bytes_after_grow junk b b0 data n hinv hlen hsz hg
    rw [hpush] at h
    simp only [Option.some.injEq] at h
    subst h
    refine ⟨inv_of_fields b0 _ hinv0 rfl hll (by show b.off + 8 * n ≤ b0.nbits; omega),
      rfl, by show b.off + 8 * n < b0.nbits; omega⟩

theorem push_bits_fix (off nb nbits : Nat) (h1 : nbits ≤ 8 * nb)
    (h2 : off + 8 * nb < SIZE_MOD) :
    (off + 8 * nb + (SIZE_MOD - (8 * nb) % SIZE_MOD) + nbits) % SIZE_MOD = off + nbits := by
  have h3 : (8 * nb) % SIZE_MOD = 8 * nb := Nat.mod_eq_of_lt (by omega)
  rw [h3]
  have h4 : off + 8 * nb + (SIZE_MOD - 8 * nb) + nbits = off + nbits + SIZE_MOD := by omega
  rw [h4, Nat.add_mod_right]
  exact Nat.mod_eq_of_lt (by omega)

/-- The result of `bv_push_bits` from that of the `bv_push_bytes` it calls. -/
theorem bv_push_bits_of_bytes (junk : Nat → Nat) (b b1 : bitvec) (data : List Nat)
    (nbits : Nat) (hsz : b.off + 8 * ((nbits + 7) / 8) < SIZE_MOD)
    (hoff : b1.off = b.off + 8 * ((nbits + 7) / 8))
    (h : bv_push_bytes junk b data ((nbits + 7) / 8) = some b1) :
    bv_push_bits junk b data nbits = some ⟨b1.vec, b1.nbits, b.off + nbits⟩ := by
  simp only [bv_push_bits, nbytes_eq, h, Option.map_some', hoff]
  rw [push_bits_fix b.off ((nbits + 7) / 8) nbits (by omega) hsz]

theorem inv_bv_push_bits (junk : Nat → Nat) (b b2 : bitvec) (data : List Nat) (nbits : Nat)
    (hinv : Inv b) (hlen : data.length = (nbits + 7) / 8)
    (hsz : b.off + 8 * ((nbits + 7) / 8) + 8 < SIZE_MOD)
    (h : bv_push_bits junk b data nbits = some b2) : Inv b2 := by
  cases hb : bv_push_bytes junk b data ((nbits + 7) / 8) with
  | none =>
    simp only [bv_push_bits, nbytes_eq, hb, Option.map_none'] at h
    simp at h
  | some b1 =>
    obtain ⟨hinv1, hoff1, hlt1⟩ := inv_bv_push_bytes junk b b1 data _ hinv hlen hsz hb
    rw [bv_push_bits_of_bytes junk b b1 data nbits (by omega) hoff1 hb] at h
    simp only [Option.some.injEq] at h
    subst h
    exact inv_of_fields b1 _ hinv1 rfl rfl (by show b.off + nbits ≤ b1.nbits; omega)

/-- C13: every buffer reachable from `bv_new()` or `bv_init(v)` by calls of
`bv_set`, `bv_push`, `bv_pop`, `bv_push_bytes` and `bv_push_bits` that respect
their preconditions and do not overflow `size_t` satisfies the invariant:
`off ≤ nbits`, `nbits` is a power of two, a multiple of 8 and at least 8192, and
the storage holds `nbits / 8` bytes. -/
theorem reachable_inv (b : bitvec) (h : Reachable b) :
    b.off ≤ b.nbits ∧ (∃ k, b.nbits = 2 ^ k) ∧ b.nbits % 8 = 0 ∧ BITVEC_BITS ≤ b.nbits ∧
      b.vec.length = b.nbits / 8 := by
  have hinv : Inv b := by
    induction h with
    | by_new => exact inv_bv_new
    | by_init v b h =>
      obtain ⟨b0, h0, hinv0, _⟩ := bv_init_spec v
      rw [h0] at h
      simp only [Option.some.injEq] at h
      rw [← h]; exact hinv0
    | by_set b b1 i v _ _ h ih => exact inv_bv_set b b1 i v ih h
    | by_push junk b b1 v _ hsz h ih => exact inv_bv_push junk b b1 v ih hsz h
    | by_pop b b1 r _ _ h ih => exact inv_bv_pop b b1 r ih h
    | by_push_bytes junk b b1 data n _ hpre hsz h ih =>
      exact (inv_bv_push_bytes junk b b1 data n ih hpre hsz h).1
    | by_push_bits junk b b1 data n _ hpre hsz h ih =>
      exact inv_bv_push_bits junk b b1 data n ih hpre hsz h
  obtain ⟨h1, h2, h3, h4, h5, _⟩ := hinv
  exact ⟨h1, h2, h3, h4, h5⟩

/-! ## bv_push_bytes and bv_push_bits: bits, bounds and export -/

/-- C16: for a buffer that satisfies the invariant, with no bit set from the
length `L` on in the byte `L / 8`, and a span `data` of `n` bytes (with the sums
of the growth step inside `size_t`): `bv_push_bytes(b, data, n)` succeeds, the
length becomes `L + 8 * n`, every storage bit below `L` is as before, and the
storage bit at `L + k` is bit `k` of `data` for every `k < 8 * n`.  The tail
offset `L % 8` is any of 0 to 7. -/
theorem bv_push_bytes_cross_byte (junk : Nat → Nat) (b : bitvec) (data : List Nat) (n : Nat)
    (hinv : Inv b) (hlen : data.length = n) (hbytes : ∀ x ∈ data, x < 256)
    (hsz : b.off + 8 * n + 8 ≤ 2 ^ 63)
    (htail : ∀ i, b.off ≤ i → i / 8 = b.off / 8 → bit_at b.vec i ≠ some true) :
    ∃ b1, bv_push_bytes junk b data n = some b1 ∧ b1.off = b.off + 8 * n ∧
      (∀ i, i < b.off → ∃ x, bit_at b.vec i = some x ∧ bit_at b1.vec i = some x) ∧
      (∀ k, k < 8 * n → ∃ x, bit_at data k = some x ∧ bit_at b1.vec (b.off + k) = some x) := by
  obtain ⟨b1, hpush, hoff, _, _, hold, hnew⟩ :=
    bv_push_bytes_bits junk b data n hinv hlen hbytes hsz htail
  obtain ⟨m, _, _, hlenb, hoffm⟩ := inv_pow b hinv
  refine ⟨b1, hpush, hoff, ?_, ?_⟩
  · intro i hi
    obtain ⟨x, hx⟩ := bit_at_isSome b.vec i (by omega)
    exact ⟨x, hx, by rw [hold i hi, hx]⟩
  · intro k hk
    obtain ⟨x, hx⟩ := bit_at_isSome data k (by omega)
    exact ⟨x, hx, by rw [hnew k hk, hx]⟩

/-- C19: for a buffer that satisfies the invariant and a span of `n` bytes (with
the sums of the growth step inside `size_t`), the growth step of
`bv_push_bytes` ends, every byte index of `b->vec` that the copy and the shift
loop read or write is below `nbits / 8`, the size of the storage after the
growth, every index read from the source is below `n`, and the call returns. -/
theorem bv_push_bytes_in_bounds (junk : Nat → Nat) (b : bitvec) (data : List Nat) (n : Nat)
    (hinv : Inv b) (hlen : data.length = n) (hsz : b.off + 8 * n + 8 ≤ 2 ^ 63) :
    ∃ b0 l, grow_step junk b n = some b0 ∧ b0.vec.length = b0.nbits / 8 ∧
      (∀ idx ∈ copy_step_indices b0 n, idx < b0.nbits / 8) ∧
      (∀ idx ∈ source_indices n, idx < n) ∧
      copy_step b0 data n = some l ∧
      bv_push_bytes junk b data n = some ⟨l, b0.nbits, b.off + 8 * n⟩ := by
  have hM : SIZE_MOD = 2 ^ 64 := rfl
  obtain ⟨b0, hg⟩ := grow_step_total junk b n hsz
  obtain ⟨hinv0, hoff0, hroom, _⟩ := grow_step_some junk b b0 n hinv (by omega) hg
  obtain ⟨l, hcopy, _, hpush, _, _⟩ :=
    bv_push_bytes_after_grow junk b b0 data n hinv hlen (by omega) hg
  obtain ⟨m0, hm08, _, hlen0, _⟩ := inv_pow b0 hinv0
  refine ⟨b0, l, hg, by omega, ?_, ?_, hcopy, hpush⟩
  · intro idx hidx
    unfold copy_step_indices at hidx
    simp only [hoff0] at hidx
    split at hidx
    · simp only [List.mem_map, List.mem_range] at hidx
      obtain ⟨k, hk, rfl⟩ := hidx
      omega
    · simp only [List.mem_append, List.mem_map, List.mem_range] at hidx
      rcases hidx with (⟨k, hk, rfl⟩ | ⟨k, hk, rfl⟩) | ⟨k, hk, rfl⟩ <;> omega
  · intro idx hidx
    simpa [source_indices] using hidx

/-- What `bv_push_bits` stores, for a tail whose byte has no bit set from the
length on. -/
theorem bv_push_bits_bits (junk : Nat → Nat) (b : bitvec) (data : List Nat) (nbits : Nat)
    (hinv : Inv b) (hlen : data.length = (nbits + 7) / 8) (hbytes : ∀ x ∈ data, x < 256)
    (hsz : b.off + 8 * ((nbits + 7) / 8) + 8 ≤ 2 ^ 63)
    (htail : ∀ i, b.off ≤ i → i / 8 = b.off / 8 → bit_at b.vec i ≠ some true) :
    ∃ b2, bv_push_bits junk b data nbits = some b2 ∧ b2.off = b.off + nbits ∧
      (∀ i, i < b.off → bit_at b2.vec i = bit_at b.vec i) ∧
      (∀ k, k < nbits → bit_at b2.vec (b.off + k) = bit_at data k) := by
  have hM : SIZE_MOD = 2 ^ 64 := rfl
  obtain ⟨b1, hpush, hoff, _, _, hold, hnew⟩ :=
    bv_push_bytes_bits junk b data _ hinv hlen hbytes hsz htail
  exact ⟨_, bv_push_bits_of_bytes junk b b1 data nbits (by omega) hoff hpush, rfl,
    hold, fun k hk => hnew k (by omega)⟩

/-- C12: for every `v` and every span `data` of `n` bytes (with `8 * n + 8` at
most `2 ^ 63`), after `bv_init(v)` and `bv_push_bits(b, data, 8 * n)`,
`bv_to_array` returns exactly the bytes of `data` and `nbits = 8 * n`, whatever
the pre-fill and whatever the allocator left. -/
theorem bv_init_push_bits_to_array (junk junk2 : Nat → Nat) (v : Bool) (data : List Nat)
    (hsz : 8 * data.length + 8 ≤ 2 ^ 63) :
    ∃ b0 b1, bv_init v = some b0 ∧
      bv_push_bits junk b0 data (8 * data.length) = some b1 ∧
      bv_to_array junk2 b1 = some (b1, data, 8 * data.length) := by
  have hM : SIZE_MOD = 2 ^ 64 := rfl
  obtain ⟨b0, hinit, hinv0, hoff0⟩ := bv_init_spec v
  have hnb : (8 * data.length + 7) / 8 = data.length := by omega
  obtain ⟨bg, hg⟩ := grow_step_total junk b0 data.length (by rw [hoff0]; omega)
  obtain ⟨l, _, _, hpush, hshape, _⟩ :=
    bv_push_bytes_after_grow junk b0 bg data data.length hinv0 rfl (by rw [hoff0]; omega) hg
  obtain ⟨post, hl⟩ := hshape (by rw [hoff0])
  rw [hoff0] at hl hpush
  simp only [Nat.zero_div, List.take_zero, List.nil_append, Nat.zero_add] at hl hpush
  subst hl
  have hbits : bv_push_bits junk b0 data (8 * data.length)
      = some ⟨data ++ post, bg.nbits, 8 * data.length⟩ := by
    have h := bv_push_bits_of_bytes junk b0 ⟨data ++ post, bg.nbits, 8 * data.length⟩ data
      (8 * data.length) (by rw [hoff0, hnb]; omega) (by rw [hoff0, hnb]; simp)
      (by rw [hnb]; exact hpush)
    rw [hoff0] at h
    simpa using h
  refine ⟨b0, _, hinit, hbits, ?_⟩
  rw [bv_to_array_eq junk2 _ (by simp only [List.length_append]; omega)]
  show some (_, List.take ((8 * data.length + 7) / 8) (data ++ post), _) = _
  rw [hnb, List.take_left' rfl]

/-! ## A buffer filled to its capacity -/

theorem bv_push_false_nogrow (junk : Nat → Nat) (b : bitvec) (h : b.nbits ≠ b.off)
    (hsz : b.off + 1 < SIZE_MOD) :
    bv_push junk b false = some ⟨b.vec, b.nbits, b.off + 1⟩ := by
  simp [bv_push, h, Nat.mod_eq_of_lt hsz]

theorem bv_push_all_cons (junk : Nat → Nat) (b : bitvec) (v : Bool) (vs : List Bool) :
    bv_push_all junk b (v :: vs)
      = (bv_push junk b v).bind (fun b1 => bv_push_all junk b1 vs) := rfl

theorem bv_push_all_false_nogrow (junk : Nat → Nat) :
    ∀ (n : Nat) (b : bitvec), b.off + n ≤ b.nbits → b.nbits < SIZE_MOD →
      bv_push_all junk b (List.replicate n false) = some ⟨b.vec, b.nbits, b.off + n⟩ := by
  intro n
  induction n with
  | zero => intro b _ _; rfl
  | succ n ih =>
    intro b hle hlt
    have h1 := bv_push_false_nogrow junk b (by omega) (by omega)
    have h2 := ih ⟨b.vec, b.nbits, b.off + 1⟩ (by show b.off + 1 + n ≤ b.nbits; omega) hlt
    simp only [List.replicate_succ, bv_push_all, h1, Option.bind_eq_bind, Option.some_bind, h2]
    have : b.off + 1 + n = b.off + (n + 1) := by omega
    rw [this]

theorem full_bits_pushed (junk : Nat → Nat) :
    bv_push_all junk bv_new (List.replicate 8192 false) = some full_bits :=
  bv_push_all_false_nogrow junk 8192 bv_new (by decide) (by decide)

theorem inv_full_bits : Inv full_bits :=
  ⟨by decide, ⟨13, by decide⟩, by decide, by decide, by simp [full_bits, length_calloc],
    by decide⟩

theorem bit_at_calloc (n i : Nat) : bit_at (calloc n) i ≠ some true := by
  unfold bit_at calloc
  rw [List.getElem?_replicate]
  split <;> simp

theorem full_bits_tail (i : Nat) (_ : full_bits.off ≤ i) :
    bit_at full_bits.vec i ≠ some true :=
  bit_at_calloc 1024 i

/-- The first push onto the full buffer doubles the storage with `realloc` and
writes nothing. -/
theorem bv_push_full_false (junk : Nat → Nat) :
    bv_push junk full_bits false
      = some ⟨realloc junk (calloc 1024) 2048, 16384, 8193⟩ := by
  simp [bv_push, full_bits, SIZE_MOD]

theorem bv_push_all_full_false (junk : Nat → Nat) :
    bv_push_all junk full_bits (List.replicate 8 false)
      = some ⟨realloc junk (calloc 1024) 2048, 16384, 8200⟩ := by
  have h := bv_push_all_false_nogrow junk 7 ⟨realloc junk (calloc 1024) 2048, 16384, 8193⟩
    (by show (8193 : Nat) + 7 ≤ 16384; norm_num) (by show (16384 : Nat) < SIZE_MOD; decide)
  have h8 : List.replicate 8 false = false :: List.replicate 7 false := rfl
  rw [h8, bv_push_all_cons, bv_push_full_false, Option.some_bind, h]

theorem bit_at_realloc_ones : bit_at (realloc ones (calloc 1024) 2048) 8192 = some true := by
  unfold bit_at
  rw [realloc_getElem_new ones (calloc 1024) 2048 (8192 / 8)
    (by rw [length_calloc]) (by norm_num)]
  decide

/-- C17 fails on the code: `realloc` does not clear the bytes it adds, and
`bv_push(b, false)` writes nothing.  On the buffer of 8192 `false` bits (length
equal to capacity, no bit set from the length on), with an allocator that
leaves `0xff` bytes: `bv_push_bits(b, [0x00], 8)` stores the eight clear bits,
while eight calls `bv_push(b, false)` leave the storage bit at index 8192 set.
Both lengths are 8200. -/
theorem bv_push_bits_differs_from_pushes :
    bv_push_all zeros bv_new (List.replicate 8192 false) = some full_bits ∧
    Inv full_bits ∧
    (∀ i, full_bits.off ≤ i → bit_at full_bits.vec i ≠ some true) ∧
    bit_at [0x00] 0 = some false ∧
    (bv_push_bits ones full_bits [0x00] 8).map (fun b => b.off) = some (8192 + 8) ∧
    (bv_push_bits ones full_bits [0x00] 8).bind (fun b => bit_at b.vec 8192) = some false ∧
    (bv_push_all ones full_bits (List.replicate 8 false)).map (fun b => b.off)
      = some (8192 + 8) ∧
    (bv_push_all ones full_bits (List.replicate 8 false)).bind (fun b => bit_at b.vec 8192)
      = some true := by
  obtain ⟨b2, hbits, hoff, _, hnew⟩ := bv_push_bits_bits ones full_bits [0x00] 8
    inv_full_bits rfl (by decide) (by decide) (fun i hi _ => full_bits_tail i hi)
  have h0 : bit_at b2.vec 8192 = bit_at [0x00] 0 := hnew 0 (by norm_num)
  have hoff0 : b2.off = 8192 + 8 := hoff
  refine ⟨full_bits_pushed zeros, inv_full_bits, full_bits_tail, by decide, ?_, ?_, ?_, ?_⟩
  · rw [hbits, Option.map_some', hoff0]
  · rw [hbits, Option.some_bind, h0]
    decide
  · rw [bv_push_all_full_false, Option.map_some']
  · rw [bv_push_all_full_false, Option.some_bind]
    exact bit_at_realloc_ones

/-- C18 fails on the code: after `bv_new()` and exactly 8192 pushes the length
equals the capacity, the invariant holds, and `bv_pop` uses the byte index
`off / 8 = 1024 = nbits / 8`, one past the 1024 bytes of the storage: the access
is outside of it. -/
theorem bv_pop_outside_at_capacity :
    bv_push_all zeros bv_new (List.replicate 8192 false) = some full_bits ∧
    Inv full_bits ∧ 0 < full_bits.off ∧
    full_bits.vec.length = full_bits.nbits / 8 ∧
    bv_pop_index full_bits = full_bits.nbits / 8 ∧
    bv_pop full_bits = none :=
  ⟨full_bits_pushed zeros, inv_full_bits, by decide, inv_full_bits.2.2.2.2.1, by decide,
    by decide⟩

/-- C11 fails on the code: the calls `bv_push(b, false)`, `bv_get(b, 0)` return
`true` from `bv_get` on `bv_init(true)` and `false` on `bv_new()`; the calls
`bv_push(b, true)`, `bv_pop(b)` return `true` from `bv_pop` on `bv_init(true)`
and `false` on `bv_new()`.  The lengths agree. -/
theorem bv_init_true_differs_from_bv_new :
    (bv_init true).bind (fun b => run_calls zeros b [call.do_push false, call.do_get 0])
      = some [(none, 1), (some true, 1)] ∧
    run_calls zeros bv_new [call.do_push false, call.do_get 0]
      = some [(none, 1), (some false, 1)] ∧
    (bv_init true).bind (fun b => run_calls zeros b [call.do_push true, call.do_pop])
      = some [(none, 1), (some true, 0)] ∧
    run_calls zeros bv_new [call.do_push true, call.do_pop]
      = some [(none, 1), (some false, 0)] := by decide

/-! ## Instances of the general statements on the sample buffer -/

theorem inv_twelve_bits : Inv twelve_bits :=
  ⟨by decide, ⟨13, by decide⟩, by decide, by decide,
    by simp [twelve_bits, length_calloc], by decide⟩

theorem twelve_bits_tail (i : Nat) (h1 : twelve_bits.off ≤ i)
    (h2 : i / 8 = twelve_bits.off / 8) : bit_at twelve_bits.vec i ≠ some true := by
  have h3 : twelve_bits.off = 12 := rfl
  rw [h3] at h1 h2
  have h4 : i < 16 := by omega
  interval_cases i <;> decide

theorem reachable_twelve_bits : Reachable twelve_bits :=
  Reachable.by_push_bits zeros bv_new twelve_bits [0xb5, 0xf0] 12 Reachable.by_new
    (by decide) (by decide) (by decide)

theorem bv_init_push_bits_to_array_witness :
    8 * [0x00, 0x00].length + 8 ≤ 2 ^ 63 ∧
    ∃ b0 b1, bv_init true = some b0 ∧
      bv_push_bits zeros b0 [0x00, 0x00] (8 * [0x00, 0x00].length) = some b1 ∧
      bv_to_array zeros b1 = some (b1, [0x00, 0x00], 8 * [0x00, 0x00].length) :=
  ⟨by decide, bv_init_push_bits_to_array zeros zeros true [0x00, 0x00] (by decide)⟩

theorem reachable_inv_witness :
    Reachable twelve_bits ∧
    (twelve_bits.off ≤ twelve_bits.nbits ∧ (∃ k, twelve_bits.nbits = 2 ^ k) ∧
      twelve_bits.nbits % 8 = 0 ∧ BITVEC_BITS ≤ twelve_bits.nbits ∧
      twelve_bits.vec.length = twelve_bits.nbits / 8) :=
  ⟨reachable_twelve_bits, reachable_inv twelve_bits reachable_twelve_bits⟩

theorem bv_push_capacity_witness :
    (Inv twelve_bits ∧ 2 * twelve_bits.nbits < SIZE_MOD ∧
      ∃ b1, bv_push zeros twelve_bits true = some b1 ∧
        (b1.nbits = 2 * twelve_bits.nbits ↔ twelve_bits.off = twelve_bits.nbits) ∧
        (b1.nbits = twelve_bits.nbits ↔ twelve_bits.off ≠ twelve_bits.nbits)) ∧
    (Inv full_bits ∧ 2 * full_bits.nbits < SIZE_MOD ∧
      ∃ b1, bv_push zeros full_bits true = some b1 ∧
        (b1.nbits = 2 * full_bits.nbits ↔ full_bits.off = full_bits.nbits) ∧
        (b1.nbits = full_bits.nbits ↔ full_bits.off ≠ full_bits.nbits)) ∧
    ([true, false, true].length ≤ 2 ^ 63 ∧
      ∃ b, bv_push_all zeros bv_new [true, false, true] = some b ∧
        b.off = [true, false, true].length ∧
        ([true, false, true].length ≤ 8192 → b.nbits = 8192) ∧
        (8192 < [true, false, true].length →
          (∃ j, b.nbits = 2 ^ j) ∧ [true, false, true].length ≤ b.nbits ∧
            ∀ i, [true, false, true].length ≤ 2 ^ i → b.nbits ≤ 2 ^ i)) ∧
    ((List.replicate 8193 true).length = 8193 ∧
      ∃ b, bv_push_all zeros bv_new (List.replicate 8193 true) = some b ∧
        b.nbits = 16384) :=
  ⟨⟨inv_twelve_bits, by decide,
      (bv_push_capacity zeros).1 twelve_bits true inv_twelve_bits (by decide)⟩,
    ⟨inv_full_bits, by decide,
      (bv_push_capacity zeros).1 full_bits true inv_full_bits (by decide)⟩,
    ⟨by decide, (bv_push_capacity zeros).2.1 [true, false, true] (by decide)⟩,
    ⟨List.length_replicate _ _,
      (bv_push_capacity zeros).2.2 (List.replicate 8193 true) (List.length_replicate _ _)⟩⟩

theorem bv_push_keeps_bits_witness :
    Inv full_bits ∧ (full_bits.off = full_bits.nbits → 2 * full_bits.nbits < SIZE_MOD) ∧
    ∃ b1, bv_push ones full_bits true = some b1 ∧
      ∀ i, i < full_bits.off →
        ∃ x, bit_at full_bits.vec i = some x ∧ bit_at b1.vec i = some x :=
  ⟨inv_full_bits, fun _ => by decide,
    bv_push_keeps_bits ones full_bits true inv_full_bits (fun _ => by decide)⟩

theorem bv_push_bytes_cross_byte_witness :
    Inv twelve_bits ∧ [0xff, 0x00].length = 2 ∧ (∀ x ∈ [0xff, 0x00], x < 256) ∧
    twelve_bits.off + 8 * 2 + 8 ≤ 2 ^ 63 ∧
    (∀ i, twelve_bits.off ≤ i → i / 8 = twelve_bits.off / 8 →
      bit_at twelve_bits.vec i ≠ some true) ∧
    ∃ b1, bv_push_bytes zeros twelve_bits [0xff, 0x00] 2 = some b1 ∧
      b1.off = twelve_bits.off + 8 * 2 ∧
      (∀ i, i < twelve_bits.off →
        ∃ x, bit_at twelve_bits.vec i = some x ∧ bit_at b1.vec i = some x) ∧
      (∀ k, k < 8 * 2 →
        ∃ x, bit_at [0xff, 0x00] k = some x ∧ bit_at b1.vec (twelve_bits.off + k) = some x) :=
  ⟨inv_twelve_bits, rfl, by decide, by decide, twelve_bits_tail,
    bv_push_bytes_cross_byte zeros twelve_bits [0xff, 0x00] 2 inv_twelve_bits rfl
      (by decide) (by decide) twelve_bits_tail⟩

theorem bv_push_bytes_in_bounds_witness :
    Inv twelve_bits ∧ [0xff, 0x00].length = 2 ∧ twelve_bits.off + 8 * 2 + 8 ≤ 2 ^ 63 ∧
    ∃ b0 l, grow_step zeros twelve_bits 2 = some b0 ∧ b0.vec.length = b0.nbits / 8 ∧
      (∀ idx ∈ copy_step_indices b0 2, idx < b0.nbits / 8) ∧
      (∀ idx ∈ source_indices 2, idx < 2) ∧
      copy_step b0 [0xff, 0x00] 2 = some l ∧
      bv_push_bytes zeros twelve_bits [0xff, 0x00] 2
        = some ⟨l, b0.nbits, twelve_bits.off + 8 * 2⟩ :=
  ⟨inv_twelve_bits, rfl, by decide,
    bv_push_bytes_in_bounds zeros twelve_bits [0xff, 0x00] 2 inv_twelve_bits rfl (by decide)⟩

end Bitvec
